import Mathlib

/-!
# Diagonal sums scanner (`multithreaded-diagonal-sums/proj4.c`)

A shallow embedding of the diagonal-sum engine of `proj4.c` and theorems about it.

Conventions of the embedding:

* C `int` values (`n`, `startRow`, `startCol`, `len`, `k`, `t`, row bounds) are Lean `Int`s;
  no `int` of the program leaves the 32-bit range on a grid whose side fits an `int`.
* `unsigned long` sums are `Nat`s reduced modulo `2 ^ 64` after every addition.
* Every array access `g->p[i][j]` is bounds-checked: a read or write outside the
  allocated rows gives `none`, and so does every procedure that performs one.
* `malloc` and the thread primitives are taken to succeed; the workers of the
  multi-thread branch run one after another, in index order.
-/

namespace DiagonalSums

/-! ## Data model -/

/-- Modelled from the spec: the `grid` record declared in `proj4.h` (the header is not
among the sources). An `n`-by-`n` matrix: the side `n` and the rows `p`, every cell an
`unsigned char`. -/
structure grid where
  n : Nat
  p : List (List Nat)
deriving DecidableEq, Repr

/-- Width of `unsigned long`: sums are kept modulo this value. -/
def ULONG_MODULUS : Nat := 2 ^ 64

/-- The read `g->p[i][j]`; `none` when the access is outside the allocated cells. -/
def grid.read (g : grid) (i j : Int) : Option Nat :=
  if 0 ≤ i ∧ 0 ≤ j then
    match g.p[i.toNat]? with
    | none => none
    | some row => row[j.toNat]?
  else none

/-- The write `g->p[i][j] = v`; `none` when the access is outside the allocated cells. -/
def grid.write (g : grid) (i j : Int) (v : Nat) : Option grid :=
  if 0 ≤ i ∧ 0 ≤ j then
    match g.p[i.toNat]? with
    | none => none
    | some row =>
      if j.toNat < row.length then
        some { g with p := g.p.set i.toNat (row.set j.toNat v) }
      else none
  else none

/-- The values taken by the counter of `for (int x = lo; x < hi; x++)`, in order. -/
def forRange (lo hi : Int) : List Int :=
  (List.range (hi - lo).toNat).map (fun (i : Nat) => lo + (i : Int))

/-- The record handed to a worker: the input grid, the target sum and the row range
`[startRow, endRow)`. The shared output grid is threaded through the calls instead of
being stored in the record. -/
structure ThreadData where
  input : grid
  s : Nat
  startRow : Int
  endRow : Int
deriving DecidableEq, Repr

/-! ## The four diagonal procedures -/

/-- Forward diagonals (down-right) starting at `(startRow, 0)`. -/
def processForwardDiagonalFromLeftEdge (input : grid) (s : Nat) (output : grid)
    (startRow : Int) : Option grid :=
  let n : Int := input.n
  (forRange 2 (n - startRow + 1)).foldlM (fun output len => do
    let sum ← (forRange 0 len).foldlM (fun sum k => do
      let v ← input.read (startRow + k) k
      pure ((sum + v) % ULONG_MODULUS)) 0
    if sum = s then
      (forRange 0 len).foldlM (fun output k => output.write (startRow + k) k 1) output
    else pure output) output

/-- Backward diagonals (down-left) starting at `(startRow, n - 1)`. -/
def processBackwardDiagonalFromRightEdge (input : grid) (s : Nat) (output : grid)
    (startRow : Int) : Option grid :=
  let n : Int := input.n
  (forRange 2 (n - startRow + 1)).foldlM (fun output len => do
    let sum ← (forRange 0 len).foldlM (fun sum k => do
      let v ← input.read (startRow + k) (n - 1 - k)
      pure ((sum + v) % ULONG_MODULUS)) 0
    if sum = s then
      (forRange 0 len).foldlM (fun output k => output.write (startRow + k) (n - 1 - k) 1) output
    else pure output) output

/-- Forward diagonals (down-right) starting at `(0, startCol)`. -/
def processForwardDiagonalFromTopEdge (input : grid) (s : Nat) (output : grid)
    (startCol : Int) : Option grid :=
  let n : Int := input.n
  (forRange 2 (n - startCol + 1)).foldlM (fun output len => do
    let sum ← (forRange 0 len).foldlM (fun sum k => do
      let v ← input.read k (startCol + k)
      pure ((sum + v) % ULONG_MODULUS)) 0
    if sum = s then
      (forRange 0 len).foldlM (fun output k => output.write k (startCol + k) 1) output
    else pure output) output

/-- Backward diagonals (down-left) starting at `(0, startCol)`. -/
def processBackwardDiagonalFromTopEdge (input : grid) (s : Nat) (output : grid)
    (startCol : Int) : Option grid :=
  (forRange 2 (startCol + 1 + 1)).foldlM (fun output len => do
    let sum ← (forRange 0 len).foldlM (fun sum k => do
      let v ← input.read k (startCol - k)
      pure ((sum + v) % ULONG_MODULUS)) 0
    if sum = s then
      (forRange 0 len).foldlM (fun output k => output.write k (startCol - k) 1) output
    else pure output) output

/-! ## Workers and the entry point -/

/-- The body of one worker: the two row families for the rows of its range, then, for
the worker whose range starts at row 0, the two top-edge families. -/
def diagonalSumsThread (data : ThreadData) (output : grid) : Option grid := do
  let n : Int := data.input.n
  let output ← (forRange data.startRow data.endRow).foldlM (fun output i => do
    let output ← processForwardDiagonalFromLeftEdge data.input data.s output i
    processBackwardDiagonalFromRightEdge data.input data.s output i) output
  if data.startRow = 0 then
    let output ← (forRange 1 n).foldlM (fun output j =>
      processForwardDiagonalFromTopEdge data.input data.s output j) output
    (forRange 0 (n - 1)).foldlM (fun output j =>
      processBackwardDiagonalFromTopEdge data.input data.s output j) output
  else pure output

/-- The zero-initialised `n`-by-`n` output grid allocated by `diagonalSums`. -/
def zeroGrid (n : Nat) : grid := ⟨n, List.replicate n (List.replicate n 0)⟩

/-- The `threadData` array of the multi-thread branch of `diagonalSums`: the loop over
the `t - 1` created threads, then the entry of the main thread, which takes
`[currentRow, n)`. -/
def threadData (input : grid) (s : Nat) (t : Int) : List ThreadData :=
  let n : Int := input.n
  let rowsPerThread := n / t
  let remainingRows := n % t
  let st := (forRange 0 (t - 1)).foldl (fun (st : List ThreadData × Int) i =>
    let currentRow := st.2
    let extraRow : Int := if i < remainingRows then 1 else 0
    let endRow := currentRow + rowsPerThread + extraRow
    (st.1 ++ [⟨input, s, currentRow, endRow⟩], endRow)) ([], 0)
  st.1 ++ [⟨input, s, st.2, n⟩]

/-- The work items of a call of `diagonalSums`: the single record of the `t == 1`
branch, or the `threadData` array of the multi-thread branch. -/
def workItems (input : grid) (s : Nat) (t : Int) : List ThreadData :=
  if t = 1 then [⟨input, s, 0, input.n⟩] else threadData input s t

/-- Runs the workers of the given records one after another on the shared output. -/
def runWorkers (items : List ThreadData) (output : grid) : Option grid :=
  items.foldlM (fun output data => diagonalSumsThread data output) output

/-- The entry point. `none` stands for undefined behaviour: a thread count below 1
(division by zero, negative array size) or an out-of-bounds access. -/
def diagonalSums (input : grid) (s : Nat) (t : Int) : Option grid :=
  let n := input.n
  let output := zeroGrid n
  if t = 1 then
    diagonalSumsThread ⟨input, s, 0, n⟩ output
  else if t < 1 then none
  else runWorkers (threadData input s t) output


/-! ## Shapes and marking steps -/

/-- The grid has side `n`: the field `n`, `n` rows, `n` cells in every row. -/
def Shape (n : Nat) (g : grid) : Prop :=
  g.n = n ∧ g.p.length = n ∧ ∀ row ∈ g.p, row.length = n

instance (n : Nat) (g : grid) : Decidable (Shape n g) := by
  unfold Shape
  infer_instance

/-- The grid `out'` has side `n` and differs from `out` exactly by the cells of `Q`
being 1. -/
def Marked (n : Nat) (out out' : grid) (Q : Nat → Nat → Prop) : Prop :=
  Shape n out' ∧ ∀ i j : Nat, i < n → j < n →
    (Q i j → out'.read i j = some 1) ∧ (¬ Q i j → out'.read i j = out.read i j)

/-- A step that, on every grid of side `n`, succeeds and sets exactly the cells of `Q`
to 1. -/
def Marks (n : Nat) (f : grid → Option grid) (Q : Nat → Nat → Prop) : Prop :=
  ∀ out, Shape n out → ∃ out', f out = some out' ∧ Marked n out out' Q

/-- The value of cell `(r, c)` of a grid (0 outside the stored cells). -/
def grid.val (g : grid) (r c : Nat) : Nat := (g.p.getD r []).getD c 0

/-- A well-formed square grid: the side fits an `int`, there are `n` rows of `n` cells,
and every cell fits an `unsigned char`. -/
def grid.WellFormed (g : grid) : Prop :=
  g.n < 2 ^ 31 ∧ g.p.length = g.n ∧ ∀ row ∈ g.p, row.length = g.n ∧ ∀ v ∈ row, v < 256

instance (g : grid) : Decidable g.WellFormed := by
  unfold grid.WellFormed
  infer_instance

/-- The loop shared by the four procedures, with the cell visited at step `k` of a
candidate given by `row k` and `col k`, and `hi` the largest candidate length. -/
def scanDiagonal (input : grid) (s : Nat) (row col : Int → Int) (hi : Int)
    (output : grid) : Option grid :=
  (forRange 2 (hi + 1)).foldlM (fun output len => do
    let sum ← (forRange 0 len).foldlM (fun sum k => do
      let v ← input.read (row k) (col k)
      pure ((sum + v) % ULONG_MODULUS)) 0
    if sum = s then
      (forRange 0 len).foldlM (fun output k => output.write (row k) (col k) 1) output
    else pure output) output

/-- The sum of the first `len` cells of the diagonal `cell`. -/
def diagSum (g : grid) (cell : Nat → Nat × Nat) (len : Nat) : Nat :=
  ((List.range len).map (fun k => g.val (cell k).1 (cell k).2)).sum

/-- The four families of candidates enumerated by the scanner. -/
inductive Family where
  | forwardFromLeftEdge
  | backwardFromRightEdge
  | forwardFromTopEdge
  | backwardFromTopEdge
deriving DecidableEq, Repr

/-- The starts `a` a family is run on, in a grid of side `n`: rows `0 .. n-1` for the two
row families, columns `1 .. n-1` and `0 .. n-2` for the two top-edge families. -/
def Family.validStart : Family → Nat → Nat → Prop
  | .forwardFromLeftEdge, n, a => a < n
  | .backwardFromRightEdge, n, a => a < n
  | .forwardFromTopEdge, n, a => 1 ≤ a ∧ a < n
  | .backwardFromTopEdge, n, a => a + 1 < n

instance : (f : Family) → (n a : Nat) → Decidable (f.validStart n a)
  | .forwardFromLeftEdge, n, a => inferInstanceAs (Decidable (a < n))
  | .backwardFromRightEdge, n, a => inferInstanceAs (Decidable (a < n))
  | .forwardFromTopEdge, n, a => inferInstanceAs (Decidable (1 ≤ a ∧ a < n))
  | .backwardFromTopEdge, n, a => inferInstanceAs (Decidable (a + 1 < n))

/-- The largest candidate length from start `a`. -/
def Family.maxLen : Family → Nat → Nat → Nat
  | .forwardFromLeftEdge, n, a => n - a
  | .backwardFromRightEdge, n, a => n - a
  | .forwardFromTopEdge, n, a => n - a
  | .backwardFromTopEdge, _, a => a + 1

/-- The `k`-th cell from start `a`. -/
def Family.cell : Family → Nat → Nat → Nat → Nat × Nat
  | .forwardFromLeftEdge, _, a, k => (a + k, k)
  | .backwardFromRightEdge, n, a, k => (a + k, n - 1 - k)
  | .forwardFromTopEdge, _, a, k => (k, a + k)
  | .backwardFromTopEdge, _, a, k => (k, a - k)

/-- Cell `(r, c)` is one of the first `len` cells from start `a`, for some length
`2 ≤ len ≤ maxLen` whose first `len` cells sum to `s`. -/
def Family.marks (f : Family) (g : grid) (s a : Nat) (r c : Nat) : Prop :=
  ∃ len, 2 ≤ len ∧ len ≤ f.maxLen g.n a ∧ diagSum g (f.cell g.n a) len = s ∧
    ∃ k < len, f.cell g.n a k = (r, c)

/-- The cells one worker marks: those of the matching candidates of the two row families
started in its rows, and, when its range starts at row 0, those of the two top-edge
families. -/
def ThreadData.marks (d : ThreadData) (r c : Nat) : Prop :=
  (∃ a : Nat, d.startRow ≤ a ∧ (a : Int) < d.endRow ∧
    (Family.forwardFromLeftEdge.marks d.input d.s a r c ∨
      Family.backwardFromRightEdge.marks d.input d.s a r c)) ∨
  (d.startRow = 0 ∧
    ((∃ a : Nat, 1 ≤ a ∧ a < d.input.n ∧ Family.forwardFromTopEdge.marks d.input d.s a r c) ∨
     (∃ a : Nat, a + 1 < d.input.n ∧ Family.backwardFromTopEdge.marks d.input d.s a r c)))

/-- Cell `(r, c)` is covered by a matching candidate of the enumeration: some family,
some valid start and some length `2 ≤ len ≤ maxLen` whose first `len` cells sum to `s`
and include `(r, c)`. -/
def CandidateMarks (g : grid) (s : Nat) (r c : Nat) : Prop :=
  ∃ (f : Family) (a : Nat), f.validStart g.n a ∧ f.marks g s a r c

/-- The records all carry the given input and target, and no range starts below row 0. -/
def ItemsFor (input : grid) (s : Nat) (items : List ThreadData) : Prop :=
  ∀ d ∈ items, d.input = input ∧ d.s = s ∧ 0 ≤ d.startRow

/-- Every row of the grid lies in the range of some record, and some range starts at
row 0. -/
def Covering (n : Nat) (items : List ThreadData) : Prop :=
  (∀ a : Nat, a < n → ∃ d ∈ items, d.startRow ≤ a ∧ (a : Int) < d.endRow) ∧
  ∃ d ∈ items, d.startRow = 0

/-! ## Runs: the vocabulary of the specification -/

/-- The two diagonal directions, both followed downwards. -/
inductive Direction where
  | downRight
  | downLeft
deriving DecidableEq, Repr

/-- A contiguous sequence of `len` cells along one diagonal direction, from the cell
`(row, col)` downwards. -/
structure Run where
  dir : Direction
  row : Nat
  col : Nat
  len : Nat
deriving DecidableEq, Repr

/-- The `k`-th cell of a run. -/
def Run.cell (u : Run) (k : Nat) : Nat × Nat :=
  match u.dir with
  | .downRight => (u.row + k, u.col + k)
  | .downLeft => (u.row + k, u.col - k)

/-- The run has at least 2 cells, all of them inside the grid of side `n`. -/
def Run.InGrid (u : Run) (n : Nat) : Prop :=
  2 ≤ u.len ∧ u.row + u.len ≤ n ∧
    match u.dir with
    | .downRight => u.col + u.len ≤ n
    | .downLeft => u.col < n ∧ u.len ≤ u.col + 1

/-- The run begins on the grid edge where its diagonal enters the grid: the top row, or
the left column for a down-right run, or the right column for a down-left run. -/
def Run.FromEdge (u : Run) (n : Nat) : Prop :=
  match u.dir with
  | .downRight => u.row = 0 ∨ u.col = 0
  | .downLeft => u.row = 0 ∨ u.col + 1 = n

/-- The sum of the values of the cells of a run. -/
def Run.sum (u : Run) (g : grid) : Nat := diagSum g u.cell u.len

/-- Cell `(r, c)` is one of the cells of the run. -/
def Run.Contains (u : Run) (r c : Nat) : Prop := ∃ k < u.len, u.cell k = (r, c)

/-- Cell `(r, c)` lies on a run of at least 2 cells, anywhere in the grid, whose values
sum to `s`. -/
def OnMatchingRun (g : grid) (s r c : Nat) : Prop :=
  ∃ u : Run, u.InGrid g.n ∧ u.sum g = s ∧ u.Contains r c

/-- Cell `(r, c)` lies on a run of at least 2 cells that begins on its grid edge and
whose values sum to `s`. -/
def OnMatchingEdgeRun (g : grid) (s r c : Nat) : Prop :=
  ∃ u : Run, u.InGrid g.n ∧ u.FromEdge g.n ∧ u.sum g = s ∧ u.Contains r c

/-- The write set of one worker: cell `(r, c)` is set to 1 by the worker. No procedure
reads the output grid and every write stores 1, so these are the cells equal to 1 after
the worker has run alone on the zero-initialised grid. -/
def ThreadData.writes (d : ThreadData) (r c : Nat) : Bool :=
  match diagonalSumsThread d (zeroGrid d.input.n) with
  | none => false
  | some out => decide (out.read r c = some 1)

/-! ## Sample grids -/

/-- The 3-by-3 grid of ones of the scenario of the specification. -/
def onesGrid : grid := ⟨3, [[1, 1, 1], [1, 1, 1], [1, 1, 1]]⟩

/-- A 3-by-3 grid whose only diagonal pair summing to 2 is `(1,1), (2,2)`, which does
not begin on a grid edge. -/
def innerRunGrid : grid := ⟨3, [[9, 9, 9], [9, 1, 9], [9, 9, 1]]⟩

/-- A 2-by-2 grid, smaller than the largest thread count. -/
def smallGrid : grid := ⟨2, [[1, 2], [3, 1]]⟩

/-- The procedure of the source that scans the candidates of a family from one start. -/
def Family.run : Family → grid → Nat → grid → Int → Option grid
  | .forwardFromLeftEdge => processForwardDiagonalFromLeftEdge
  | .backwardFromRightEdge => processBackwardDiagonalFromRightEdge
  | .forwardFromTopEdge => processForwardDiagonalFromTopEdge
  | .backwardFromTopEdge => processBackwardDiagonalFromTopEdge


/-! ## Call traces of the workers -/

/-- The procedure calls of the first loop of `diagonalSumsThread`, in order: for every
row `i` of the range, the forward scan from the left edge and the backward scan from the
right edge. -/
def ThreadData.rowCalls (d : ThreadData) : List (Family × Int) :=
  (forRange d.startRow d.endRow).flatMap (fun i =>
    [(Family.forwardFromLeftEdge, i), (Family.backwardFromRightEdge, i)])

/-- The procedure calls of the `startRow == 0` branch of `diagonalSumsThread`, in order:
the forward scans from the top edge for the columns `1 .. n-1`, then the backward scans
from the top edge for the columns `0 .. n-2`. -/
def ThreadData.topCalls (d : ThreadData) : List (Family × Int) :=
  let n : Int := d.input.n
  if d.startRow = 0 then
    (forRange 1 n).map (fun j => (Family.forwardFromTopEdge, j)) ++
      (forRange 0 (n - 1)).map (fun j => (Family.backwardFromTopEdge, j))
  else []

/-- All procedure calls of one worker, in order. -/
def ThreadData.calls (d : ThreadData) : List (Family × Int) := d.rowCalls ++ d.topCalls

/-- Performs a list of procedure calls one after another on the output grid. -/
def runCalls (input : grid) (s : Nat) (calls : List (Family × Int)) (output : grid) :
    Option grid :=
  calls.foldlM (fun output c => c.1.run input s output c.2) output

/-- All procedure calls of a call of `diagonalSums`, over all its workers. -/
def allCalls (input : grid) (s : Nat) (t : Int) : List (Family × Int) :=
  (workItems input s t).flatMap ThreadData.calls

/-- A maximal diagonal of the grid of side `n`: a run inside the grid that begins on the
edge where its diagonal enters the grid and ends on the edge where it leaves. -/
def Run.Maximal (u : Run) (n : Nat) : Prop :=
  u.InGrid n ∧ u.FromEdge n ∧
    match u.dir with
    | .downRight => u.row + u.len = n ∨ u.col + u.len = n
    | .downLeft => u.row + u.len = n ∨ u.len = u.col + 1

/-- The write set of the two row families of one worker: cell `(r, c)` is set to 1 by the
first loop of the worker, that is, it is 1 after the calls of `rowCalls` have run alone
on the zero-initialised grid. -/
def ThreadData.rowWrites (d : ThreadData) (r c : Nat) : Bool :=
  match runCalls d.input d.s d.rowCalls (zeroGrid d.input.n) with
  | none => false
  | some out => decide (out.read r c = some 1)

/-- A step that, on every grid of side `n`, performs no out-of-bounds access: it returns
a grid, again of side `n`. -/
def Safe (n : Nat) (f : grid → Option grid) : Prop :=
  ∀ out, Shape n out → ∃ out', f out = some out' ∧ Shape n out'

/-! ## The inner loops of the four procedures -/

/-- The largest candidate length tried by the procedure of a family from a start: the
bound of its `len` loop. -/
def Family.hi : Family → grid → Int → Int
  | .forwardFromLeftEdge, input, startRow => (input.n : Int) - startRow
  | .backwardFromRightEdge, input, startRow => (input.n : Int) - startRow
  | .forwardFromTopEdge, input, startCol => (input.n : Int) - startCol
  | .backwardFromTopEdge, _, startCol => startCol + 1

/-- The summing loop of the procedure of a family for one candidate length: `sum` starts
at 0 and every cell is added modulo `2 ^ 64`. -/
def Family.sumLoop : Family → grid → Int → Int → Option Nat
  | .forwardFromLeftEdge, input, startRow, len =>
    (forRange 0 len).foldlM (fun sum k => do
      let v ← input.read (startRow + k) k
      pure ((sum + v) % ULONG_MODULUS)) 0
  | .backwardFromRightEdge, input, startRow, len =>
    (forRange 0 len).foldlM (fun sum k => do
      let v ← input.read (startRow + k) ((input.n : Int) - 1 - k)
      pure ((sum + v) % ULONG_MODULUS)) 0
  | .forwardFromTopEdge, input, startCol, len =>
    (forRange 0 len).foldlM (fun sum k => do
      let v ← input.read k (startCol + k)
      pure ((sum + v) % ULONG_MODULUS)) 0
  | .backwardFromTopEdge, input, startCol, len =>
    (forRange 0 len).foldlM (fun sum k => do
      let v ← input.read k (startCol - k)
      pure ((sum + v) % ULONG_MODULUS)) 0

/-- The marking loop of the procedure of a family for one candidate length. -/
def Family.markLoop : Family → grid → grid → Int → Int → Option grid
  | .forwardFromLeftEdge, _, output, startRow, len =>
    (forRange 0 len).foldlM (fun output k => output.write (startRow + k) k 1) output
  | .backwardFromRightEdge, input, output, startRow, len =>
    (forRange 0 len).foldlM
      (fun output k => output.write (startRow + k) ((input.n : Int) - 1 - k) 1) output
  | .forwardFromTopEdge, _, output, startCol, len =>
    (forRange 0 len).foldlM (fun output k => output.write k (startCol + k) 1) output
  | .backwardFromTopEdge, _, output, startCol, len =>
    (forRange 0 len).foldlM (fun output k => output.write k (startCol - k) 1) output

/-- The mirror image of a grid: every row reversed, so that cell `(r, c)` of the mirror
is cell `(r, n - 1 - c)` of the grid. -/
def mirror (g : grid) : grid := ⟨g.n, g.p.map List.reverse⟩

end DiagonalSums

namespace GradeBook

/-!
# Grade list program (`dynamic-memory-manager/proj2.c`)

A shallow embedding of the heap bookkeeping of `main`.

* `size_t` values are `Nat`s modulo `2 ^ 64`, `unsigned int` values `Nat`s modulo `2 ^ 32`,
  and `sizeof(double)` is 8.
* The scanned values are of an arbitrary type `α`: the program only stores and copies
  them. One element of the input stands for one call of `scanf` together with the test
  `isValid`: `some g` for a scan that succeeds with a grade `g >= 0`, `none` for any
  other scan; at the end of the input every scan fails.
* `malloc` always succeeds and returns a block with one slot for every 8 bytes asked for;
  a slot is `none` until it is written. Loads and stores outside a block give `none`
  for the whole run.
* The average and the comparisons with it, which are floating-point computations and
  change none of the counters, are left out.
-/

/-- Number of values of a `size_t`. -/
def SIZE_MODULUS : Nat := 2 ^ 64

/-- Number of values of an `unsigned int`. -/
def UINT_MODULUS : Nat := 2 ^ 32

/-- The value of `sizeof(double)`. -/
def SIZEOF_DOUBLE : Nat := 8

/-- The variables of `main`; `gradesHeap` is `none` for `NULL` and otherwise the block it
points to. -/
structure State (α : Type) where
  currentCapacity : Nat
  gradeCount : Nat
  gradesHeap : Option (List (Option α))
  allocCount : Nat
  freeCount : Nat
  totalBytes : Nat

/-- The variables as initialised at the start of `main`. -/
def initial {α : Type} : State α := ⟨5, 0, none, 0, 0, 0⟩

/-- A successful `malloc(size)`: a fresh block of `size / 8` unwritten slots. -/
def malloc {α : Type} (size : Nat) : List (Option α) :=
  List.replicate (size / SIZEOF_DOUBLE) none

/-- The store `*(heap + i) = v`; `none` outside the block. -/
def store {α : Type} (heap : List (Option α)) (i : Nat) (v : Option α) :
    Option (List (Option α)) :=
  if i < heap.length then some (heap.set i v) else none

/-- The copy loop `for (i = 0; i < gradeCount; i++) *(newHeap + i) = *(gradesHeap + i)`. -/
def copyLoop {α : Type} (gradesHeap newHeap : List (Option α)) (gradeCount : Nat) :
    Option (List (Option α)) :=
  (List.range gradeCount).foldlM (fun newHeap i => do
    let v ← gradesHeap[i]?
    store newHeap i v) newHeap

/-- The `else` branch of the reading loop for a valid grade: the initial allocation when
the pointer is `NULL`, the store, and the growth by 5 grades when the block is full. -/
def storeGrade {α : Type} (st : State α) (grade : α) : Option (State α) := do
  let st1 : State α :=
    match st.gradesHeap with
    | none =>
      { st with
        gradesHeap := some (malloc (st.currentCapacity * SIZEOF_DOUBLE % SIZE_MODULUS))
        allocCount := (st.allocCount + 1) % UINT_MODULUS
        totalBytes :=
          (st.totalBytes + st.currentCapacity * SIZEOF_DOUBLE % SIZE_MODULUS) % SIZE_MODULUS }
    | some _ => st
  let gradesHeap ← st1.gradesHeap
  let gradesHeap ← store gradesHeap st1.gradeCount (some grade)
  let gradeCount := (st1.gradeCount + 1) % SIZE_MODULUS
  if gradeCount = st1.currentCapacity then
    let newCapacity := (st1.currentCapacity + 5) % SIZE_MODULUS
    let newSize := newCapacity * SIZEOF_DOUBLE % SIZE_MODULUS
    let newHeap ← copyLoop gradesHeap (malloc newSize) gradeCount
    pure
      { currentCapacity := newCapacity
        gradeCount := gradeCount
        gradesHeap := some newHeap
        allocCount := (st1.allocCount + 1) % UINT_MODULUS
        freeCount := (st1.freeCount + 1) % UINT_MODULUS
        totalBytes := (st1.totalBytes + newSize) % SIZE_MODULUS }
  else
    pure { st1 with gradesHeap := some gradesHeap, gradeCount := gradeCount }

/-- The reading loop `while (isReading)`: it stops at the first scan that is not a valid
grade. -/
def readLoop {α : Type} : List (Option α) → State α → Option (State α)
  | [], st => some st
  | none :: _, st => some st
  | some grade :: rest, st => (storeGrade st grade).bind (readLoop rest)

/-- The end of `main`: the remaining block is freed when the pointer is not `NULL` (the
pointer itself keeps its value). -/
def finish {α : Type} (st : State α) : State α :=
  match st.gradesHeap with
  | none => st
  | some _ => { st with freeCount := (st.freeCount + 1) % UINT_MODULUS }

/-- The run of `main` up to its final `printf`; `none` for a run with an out-of-bounds
access. -/
def main {α : Type} (input : List (Option α)) : Option (State α) :=
  (readLoop input initial).map finish

/-- The number of allocations made for `N` stored grades when no counter wraps. -/
def allocations (N : Nat) : Nat := if N = 0 then 0 else N / 5 + 1

/-- The size in bytes of the largest block `main` asks for while it stores the grade that
follows `N` stored grades: the block of `currentCapacity + 5` grades it requests when
that grade fills the current block. -/
def largestRequest (N : Nat) : Nat := (5 * (N / 5 + 1) + 5) * SIZEOF_DOUBLE

/-- The state of the reading loop after the grades `grades` have been stored: the
counters, the capacity, and a block of `currentCapacity` slots whose first slots hold the
grades in input order (no block yet when nothing has been stored). -/
def Inv {α : Type} (grades : List α) (st : State α) : Prop :=
  st.gradeCount = grades.length ∧
  st.currentCapacity = 5 * (grades.length / 5 + 1) ∧
  (match st.gradesHeap with
    | none => grades = []
    | some block =>
      grades ≠ [] ∧ block.length = st.currentCapacity ∧
        ∀ (i : Nat) (h : i < grades.length), block[i]? = some (some (grades.get ⟨i, h⟩))) ∧
  st.allocCount = allocations grades.length % UINT_MODULUS ∧
  st.freeCount = (allocations grades.length - 1) % UINT_MODULUS ∧
  st.totalBytes =
    20 * allocations grades.length * (allocations grades.length + 1) % SIZE_MODULUS

end GradeBook

namespace DiagonalSums

/-! ## Lemmas -/

theorem mem_forRange (lo hi x : Int) : x ∈ forRange lo hi ↔ lo ≤ x ∧ x < hi := by
  unfold forRange
  simp only [List.mem_map, List.mem_range]
  constructor
  · rintro ⟨i, hi', rfl⟩
    constructor <;> omega
  · rintro ⟨h1, h2⟩
    refine ⟨(x - lo).toNat, ?_, ?_⟩ <;> omega

theorem forRange_zero_cast (L : Nat) : forRange 0 (L : Int) = (List.range L).map (fun (i : Nat) => (i : Int)) := by
  unfold forRange
  simp

theorem read_cast (g : grid) (i j : Nat) :
    g.read i j = (match g.p[i]? with | none => none | some row => row[j]?) := by
  simp [grid.read]

theorem write_spec (n : Nat) (g : grid) (a b v : Nat) (hg : Shape n g) (ha : a < n) (hb : b < n) :
    ∃ g', g.write a b v = some g' ∧ Shape n g' ∧
      ∀ i j : Nat, g'.read i j = if i = a ∧ j = b then some v else g.read i j := by
  obtain ⟨h1, h2, h3⟩ := hg
  have hlt : a < g.p.length := by omega
  have hrow : (g.p[a]).length = n := h3 _ (List.getElem_mem _)
  refine ⟨{ g with p := g.p.set a ((g.p[a]).set b v) }, ?_, ?_, ?_⟩
  · simp [grid.write, List.getElem?_eq_getElem hlt, hrow, hb]
  · refine ⟨h1, by simpa using h2, ?_⟩
    intro row hrow'
    rcases List.mem_or_eq_of_mem_set hrow' with h | h
    · exact h3 _ h
    · rw [h]; simpa using hrow
  · intro i j
    simp only [read_cast, List.getElem?_set]
    by_cases hia : a = i
    · subst hia
      simp only [hlt, if_true, true_and, List.getElem?_set, List.getElem?_eq_getElem hlt]
      by_cases hjb : b = j
      · subst hjb; simp [hrow, hb]
      · have : ¬ j = b := fun h => hjb h.symm
        simp [hjb, this]
    · have : ¬ i = a := fun h => hia h.symm
      simp [hia, this]


theorem marked_refl (n : Nat) (out : grid) (h : Shape n out) (Q : Nat → Nat → Prop)
    (hQ : ∀ i j, ¬ Q i j) : Marked n out out Q :=
  ⟨h, fun i j _ _ => ⟨fun hq => absurd hq (hQ i j), fun _ => rfl⟩⟩

theorem marked_trans {n : Nat} {a b c : grid} {Q1 Q2 : Nat → Nat → Prop}
    (h1 : Marked n a b Q1) (h2 : Marked n b c Q2) :
    Marked n a c (fun i j => Q1 i j ∨ Q2 i j) := by
  refine ⟨h2.1, fun i j hi hj => ⟨?_, ?_⟩⟩
  · intro h
    by_cases hq2 : Q2 i j
    · exact (h2.2 i j hi hj).1 hq2
    · rw [(h2.2 i j hi hj).2 hq2]
      rcases h with h | h
      · exact (h1.2 i j hi hj).1 h
      · exact absurd h hq2
  · intro h
    have hq1 : ¬ Q1 i j := fun h' => h (Or.inl h')
    have hq2 : ¬ Q2 i j := fun h' => h (Or.inr h')
    rw [(h2.2 i j hi hj).2 hq2, (h1.2 i j hi hj).2 hq1]

theorem marked_congr {n : Nat} {a b : grid} {Q1 : Nat → Nat → Prop}
    (h : Marked n a b Q1) (Q2 : Nat → Nat → Prop) (hQ : ∀ i j, i < n → j < n → (Q1 i j ↔ Q2 i j)) : Marked n a b Q2 :=
  ⟨h.1, fun i j hi hj =>
    ⟨fun hq => (h.2 i j hi hj).1 ((hQ i j hi hj).2 hq),
     fun hq => (h.2 i j hi hj).2 (fun h' => hq ((hQ i j hi hj).1 h'))⟩⟩

theorem marks_seq {n : Nat} {f g : grid → Option grid} {Q1 Q2 : Nat → Nat → Prop}
    (hf : Marks n f Q1) (hg : Marks n g Q2) :
    Marks n (fun out => (f out).bind g) (fun i j => Q1 i j ∨ Q2 i j) := by
  intro out hout
  obtain ⟨o1, e1, m1⟩ := hf out hout
  obtain ⟨o2, e2, m2⟩ := hg o1 m1.1
  exact ⟨o2, by simp [e1, e2], marked_trans m1 m2⟩

theorem marks_congr {n : Nat} {f : grid → Option grid} {Q1 : Nat → Nat → Prop}
    (hf : Marks n f Q1) (Q2 : Nat → Nat → Prop) (hQ : ∀ i j, i < n → j < n → (Q1 i j ↔ Q2 i j)) : Marks n f Q2 := by
  intro out hout
  obtain ⟨o1, e1, m1⟩ := hf out hout
  exact ⟨o1, e1, marked_congr m1 Q2 hQ⟩

theorem marks_foldlM {α : Type} (n : Nat) (xs : List α) (f : grid → α → Option grid)
    (Q : α → Nat → Nat → Prop) (hstep : ∀ x ∈ xs, Marks n (fun out => f out x) (Q x)) :
    Marks n (fun out => xs.foldlM f out) (fun i j => ∃ x ∈ xs, Q x i j) := by
  induction xs with
  | nil =>
    intro out hout
    exact ⟨out, rfl, marked_refl n out hout _ (by simp)⟩
  | cons x xs ih =>
    have h1 := hstep x (List.mem_cons_self _ _)
    have h2 := ih (fun y hy => hstep y (List.mem_cons_of_mem _ hy))
    have h3 := marks_congr (marks_seq h1 h2) (fun i j => ∃ y ∈ x :: xs, Q y i j) (by
      intro i j _ _
      simp)
    intro out hout
    obtain ⟨o, e, m⟩ := h3 out hout
    refine ⟨o, ?_, m⟩
    show List.foldlM f out (x :: xs) = some o
    rw [List.foldlM_cons]
    exact e


theorem read_val (g : grid) (hwf : g.WellFormed) (i j : Nat) (hi : i < g.n) (hj : j < g.n) :
    g.read i j = some (g.val i j) ∧ g.val i j < 256 := by
  obtain ⟨_, h2, h3⟩ := hwf
  have hlt : i < g.p.length := by omega
  have hrow := h3 _ (List.getElem_mem hlt : g.p[i] ∈ g.p)
  have hlt2 : j < (g.p[i]).length := by omega
  constructor
  · simp [read_cast, grid.val, List.getElem?_eq_getElem hlt, List.getElem?_eq_getElem hlt2,
      List.getD_eq_getElem?_getD]
  · have := hrow.2 _ (List.getElem_mem hlt2 : (g.p[i])[j] ∈ g.p[i])
    simpa [grid.val, List.getD_eq_getElem?_getD, List.getElem?_eq_getElem hlt,
      List.getElem?_eq_getElem hlt2] using this

theorem sumLoop_spec (g : grid) (hwf : g.WellFormed) (row col : Int → Int)
    (cell : Nat → Nat × Nat) (ks : List Nat)
    (hcell : ∀ k ∈ ks, row k = (cell k).1 ∧ col k = (cell k).2 ∧
      (cell k).1 < g.n ∧ (cell k).2 < g.n) (acc : Nat) (hacc : acc < ULONG_MODULUS) :
    (ks.map (fun (k : Nat) => (k : Int))).foldlM (fun sum k => do
        let v ← g.read (row k) (col k)
        pure ((sum + v) % ULONG_MODULUS)) acc
      = some ((acc + (ks.map (fun k => g.val (cell k).1 (cell k).2)).sum) % ULONG_MODULUS) ∧
    (ks.map (fun k => g.val (cell k).1 (cell k).2)).sum ≤ 255 * ks.length := by
  induction ks generalizing acc with
  | nil =>
    simp [Nat.mod_eq_of_lt hacc]
  | cons k ks ih =>
    obtain ⟨h1, h2, h3, h4⟩ := hcell k (List.mem_cons_self _ _)
    have hr := read_val g hwf _ _ h3 h4
    have ih' := ih (fun y hy => hcell y (List.mem_cons_of_mem _ hy))
    have hpos : 0 < ULONG_MODULUS := by unfold ULONG_MODULUS; norm_num
    constructor
    · simp only [List.map_cons, List.foldlM_cons, h1, h2, hr.1, List.sum_cons]
      have := (ih' ((acc + g.val (cell k).1 (cell k).2) % ULONG_MODULUS)
        (Nat.mod_lt _ hpos)).1
      simp only [Option.some_bind, Option.pure_def, Option.bind_eq_bind] at this ⊢
      rw [this, Nat.mod_add_mod, Nat.add_assoc]
    · have := (ih' 0 hpos).2
      simp only [List.map_cons, List.sum_cons, List.length_cons]
      omega


theorem write_marks (n : Nat) (row col : Int) (a b : Nat) (ha : a < n) (hb : b < n)
    (hrow : row = a) (hcol : col = b) :
    Marks n (fun out => out.write row col 1) (fun i j => (a, b) = (i, j)) := by
  intro out hout
  subst hrow hcol
  obtain ⟨g', e, hs, hr⟩ := write_spec n out a b 1 hout ha hb
  refine ⟨g', e, hs, fun i j _ _ => ⟨?_, ?_⟩⟩
  · intro h
    simp only [Prod.mk.injEq] at h
    rw [hr, if_pos ⟨h.1.symm, h.2.symm⟩]
  · intro h
    simp only [Prod.mk.injEq] at h
    rw [hr, if_neg (fun h' => h ⟨h'.1.symm, h'.2.symm⟩)]

theorem markLoop_marks (n : Nat) (row col : Int → Int) (cell : Nat → Nat × Nat) (L : Nat)
    (hcell : ∀ k < L, row k = (cell k).1 ∧ col k = (cell k).2 ∧ (cell k).1 < n ∧ (cell k).2 < n) :
    Marks n (fun out => (forRange 0 L).foldlM (fun output k => output.write (row k) (col k) 1) out)
      (fun i j => ∃ k < L, cell k = (i, j)) := by
  rw [forRange_zero_cast, ]
  have h := marks_foldlM n ((List.range L).map (fun (i : Nat) => (i : Int)))
    (fun output k => output.write (row k) (col k) 1)
    (fun k i j => cell k.toNat = (i, j)) (by
      intro x hx
      simp only [List.mem_map, List.mem_range] at hx
      obtain ⟨k, hk, rfl⟩ := hx
      obtain ⟨h1, h2, h3, h4⟩ := hcell k hk
      simpa using write_marks n (row k) (col k) _ _ h3 h4 h1 h2)
  refine marks_congr h _ ?_
  intro i j _ _
  simp [List.mem_map, List.mem_range]

theorem scanDiagonal_marks (input : grid) (s : Nat) (hwf : input.WellFormed)
    (row col : Int → Int) (hi : Int) (cell : Nat → Nat × Nat) (M : Nat)
    (hM : M = hi.toNat) (hMn : M ≤ input.n)
    (hcell : ∀ k < M, row k = (cell k).1 ∧ col k = (cell k).2 ∧
      (cell k).1 < input.n ∧ (cell k).2 < input.n) :
    Marks input.n (scanDiagonal input s row col hi)
      (fun i j => ∃ len, 2 ≤ len ∧ len ≤ M ∧ diagSum input cell len = s ∧
        ∃ k < len, cell k = (i, j)) := by
  have h := marks_foldlM input.n (forRange 2 (hi + 1))
    (fun output len => do
      let sum ← (forRange 0 len).foldlM (fun sum k => do
        let v ← input.read (row k) (col k)
        pure ((sum + v) % ULONG_MODULUS)) 0
      if sum = s then
        (forRange 0 len).foldlM (fun output k => output.write (row k) (col k) 1) output
      else pure output)
    (fun len i j => diagSum input cell len.toNat = s ∧ ∃ k < len.toNat, cell k = (i, j)) (by
      intro len hlen
      rw [mem_forRange] at hlen
      obtain ⟨L, rfl⟩ : ∃ L : Nat, len = L := ⟨len.toNat, by omega⟩
      have hLM : L ≤ M := by omega
      have hc : ∀ k < L, row k = (cell k).1 ∧ col k = (cell k).2 ∧
          (cell k).1 < input.n ∧ (cell k).2 < input.n := fun k hk => hcell k (by omega)
      have hsum := sumLoop_spec input hwf row col cell (List.range L)
        (fun k hk => hc k (List.mem_range.1 hk)) 0 (by unfold ULONG_MODULUS; norm_num)
      have hlt : diagSum input cell L < ULONG_MODULUS := by
        have h1 := hsum.2
        have h2 := hwf.1
        simp only [List.length_range] at h1
        unfold diagSum ULONG_MODULUS
        omega
      have hs : (forRange 0 (L : Int)).foldlM (fun sum k => do
          let v ← input.read (row k) (col k)
          pure ((sum + v) % ULONG_MODULUS)) 0 = some (diagSum input cell L) := by
        rw [forRange_zero_cast, hsum.1, Nat.zero_add]
        exact congrArg some (Nat.mod_eq_of_lt hlt)
      intro out hout
      show ∃ out', (do
        let sum ← (forRange 0 (L : Int)).foldlM (fun sum k => do
          let v ← input.read (row k) (col k)
          pure ((sum + v) % ULONG_MODULUS)) 0
        if sum = s then
          (forRange 0 (L : Int)).foldlM (fun output k => output.write (row k) (col k) 1) out
        else pure out) = some out' ∧ _
      rw [hs]
      simp only [Int.toNat_ofNat, Option.some_bind, Option.bind_eq_bind]
      by_cases heq : diagSum input cell L = s
      · simp only [heq, if_true, true_and]
        exact markLoop_marks input.n row col cell L hc out hout
      · simp only [heq, if_false, false_and]
        exact ⟨out, rfl, marked_refl _ _ hout _ (fun _ _ h => h)⟩)
  refine marks_congr h _ ?_
  intro i j _ _
  constructor
  · rintro ⟨len, hlen, h1, h2⟩
    rw [mem_forRange] at hlen
    exact ⟨len.toNat, by omega, by omega, h1, h2⟩
  · rintro ⟨len, h1, h2, h3, h4⟩
    refine ⟨(len : Int), ?_, by simpa using h3, by simpa using h4⟩
    rw [mem_forRange]
    omega


theorem forwardLeft_marks (input : grid) (s : Nat) (hwf : input.WellFormed) (a : Nat) :
    Marks input.n (fun out => processForwardDiagonalFromLeftEdge input s out a)
      (Family.forwardFromLeftEdge.marks input s a) := by
  refine scanDiagonal_marks input s hwf (fun k => (a : Int) + k) (fun k => k)
    ((input.n : Int) - a) (Family.forwardFromLeftEdge.cell input.n a) (input.n - a)
    (by omega) (by omega) ?_
  intro k hk
  simp only [Family.cell]
  refine ⟨by omega, trivial, by omega, by omega⟩

theorem backwardRight_marks (input : grid) (s : Nat) (hwf : input.WellFormed) (a : Nat) :
    Marks input.n (fun out => processBackwardDiagonalFromRightEdge input s out a)
      (Family.backwardFromRightEdge.marks input s a) := by
  refine scanDiagonal_marks input s hwf (fun k => (a : Int) + k)
    (fun k => (input.n : Int) - 1 - k)
    ((input.n : Int) - a) (Family.backwardFromRightEdge.cell input.n a) (input.n - a)
    (by omega) (by omega) ?_
  intro k hk
  simp only [Family.cell]
  refine ⟨by omega, by omega, by omega, by omega⟩

theorem forwardTop_marks (input : grid) (s : Nat) (hwf : input.WellFormed) (a : Nat) :
    Marks input.n (fun out => processForwardDiagonalFromTopEdge input s out a)
      (Family.forwardFromTopEdge.marks input s a) := by
  refine scanDiagonal_marks input s hwf (fun k => k) (fun k => (a : Int) + k)
    ((input.n : Int) - a) (Family.forwardFromTopEdge.cell input.n a) (input.n - a)
    (by omega) (by omega) ?_
  intro k hk
  simp only [Family.cell]
  refine ⟨trivial, by omega, by omega, by omega⟩

theorem backwardTop_marks (input : grid) (s : Nat) (hwf : input.WellFormed) (a : Nat)
    (ha : a < input.n) :
    Marks input.n (fun out => processBackwardDiagonalFromTopEdge input s out a)
      (Family.backwardFromTopEdge.marks input s a) := by
  refine scanDiagonal_marks input s hwf (fun k => k) (fun k => (a : Int) - k)
    ((a : Int) + 1) (Family.backwardFromTopEdge.cell input.n a) (a + 1)
    (by omega) (by omega) ?_
  intro k hk
  simp only [Family.cell]
  refine ⟨trivial, by omega, by omega, by omega⟩


theorem marks_forRange (n : Nat) (lo hi : Int) (hlo : 0 ≤ lo)
    (f : grid → Int → Option grid) (Q : Nat → Nat → Nat → Prop)
    (hstep : ∀ a : Nat, lo ≤ a → (a : Int) < hi → Marks n (fun out => f out a) (Q a)) :
    Marks n (fun out => (forRange lo hi).foldlM f out)
      (fun i j => ∃ a : Nat, lo ≤ a ∧ (a : Int) < hi ∧ Q a i j) := by
  have h := marks_foldlM n (forRange lo hi) f (fun x i j => Q x.toNat i j) (by
    intro x hx
    rw [mem_forRange] at hx
    obtain ⟨a, rfl⟩ : ∃ a : Nat, x = a := ⟨x.toNat, by omega⟩
    simpa using hstep a hx.1 hx.2)
  refine marks_congr h _ ?_
  intro i j _ _
  constructor
  · rintro ⟨x, hx, hq⟩
    rw [mem_forRange] at hx
    exact ⟨x.toNat, by omega, by omega, hq⟩
  · rintro ⟨a, h1, h2, hq⟩
    exact ⟨a, (mem_forRange _ _ _).2 ⟨h1, h2⟩, by simpa using hq⟩

theorem marks_skip (n : Nat) : Marks n (fun out => some out) (fun _ _ => False) :=
  fun out hout => ⟨out, rfl, marked_refl n out hout _ (fun _ _ h => h)⟩

theorem thread_marks (d : ThreadData) (hwf : d.input.WellFormed) (h0 : 0 ≤ d.startRow) :
    Marks d.input.n (diagonalSumsThread d) d.marks := by
  have hrows := marks_forRange d.input.n d.startRow d.endRow h0
    (fun output i => do
      let output ← processForwardDiagonalFromLeftEdge d.input d.s output i
      processBackwardDiagonalFromRightEdge d.input d.s output i)
    (fun a i j => Family.forwardFromLeftEdge.marks d.input d.s a i j ∨
      Family.backwardFromRightEdge.marks d.input d.s a i j)
    (fun a _ _ => marks_seq (forwardLeft_marks d.input d.s hwf a)
      (backwardRight_marks d.input d.s hwf a))
  have hft := marks_forRange d.input.n 1 d.input.n (by omega)
    (fun output j => processForwardDiagonalFromTopEdge d.input d.s output j)
    (fun a i j => Family.forwardFromTopEdge.marks d.input d.s a i j)
    (fun a _ _ => forwardTop_marks d.input d.s hwf a)
  have hbt := marks_forRange d.input.n 0 ((d.input.n : Int) - 1) (by omega)
    (fun output j => processBackwardDiagonalFromTopEdge d.input d.s output j)
    (fun a i j => Family.backwardFromTopEdge.marks d.input d.s a i j)
    (fun a _ h => backwardTop_marks d.input d.s hwf a (by omega))
  by_cases hs : d.startRow = 0
  · have h := marks_congr (marks_seq hrows (marks_seq hft hbt)) d.marks (by
      intro i j _ _
      unfold ThreadData.marks
      simp only [hs, true_and]
      apply or_congr Iff.rfl
      apply or_congr
      · exact exists_congr fun a => by
          constructor
          · rintro ⟨h1, h2, h3⟩; exact ⟨by omega, by omega, h3⟩
          · rintro ⟨h1, h2, h3⟩; exact ⟨by omega, by omega, h3⟩
      · exact exists_congr fun a => by
          constructor
          · rintro ⟨h1, h2, h3⟩; exact ⟨by omega, h3⟩
          · rintro ⟨h2, h3⟩; exact ⟨by omega, by omega, h3⟩)
    intro out hout
    obtain ⟨o, e, m⟩ := h out hout
    refine ⟨o, ?_, m⟩
    rw [← e]
    simp [diagonalSumsThread, hs]
  · have h := marks_congr (marks_seq hrows (marks_skip d.input.n)) d.marks (by
      intro i j _ _
      unfold ThreadData.marks
      simp only [hs, false_and, or_false])
    intro out hout
    obtain ⟨o, e, m⟩ := h out hout
    refine ⟨o, ?_, m⟩
    rw [← e]
    simp [diagonalSumsThread, hs]


theorem shape_zeroGrid (n : Nat) : Shape n (zeroGrid n) := by
  refine ⟨rfl, by simp [zeroGrid], ?_⟩
  intro row hrow
  simp only [zeroGrid, List.mem_replicate] at hrow
  rw [hrow.2]
  simp

theorem read_zeroGrid (n i j : Nat) (hi : i < n) (hj : j < n) :
    (zeroGrid n).read i j = some 0 := by
  simp [read_cast, zeroGrid, List.getElem?_replicate, hi, hj]

theorem read_of_shape (n : Nat) (g : grid) (hg : Shape n g) (i j : Nat) (hi : i < n)
    (hj : j < n) : ∃ (h1 : i < g.p.length) (h2 : j < (g.p.get ⟨i, h1⟩).length),
      g.read i j = some ((g.p.get ⟨i, h1⟩).get ⟨j, h2⟩) := by
  obtain ⟨_, h2, h3⟩ := hg
  have hlt : i < g.p.length := by omega
  have hrow := h3 _ (List.getElem_mem hlt : g.p[i] ∈ g.p)
  have hlt2 : j < (g.p[i]).length := by omega
  refine ⟨hlt, hlt2, ?_⟩
  simp [read_cast, List.getElem?_eq_getElem hlt, List.getElem?_eq_getElem hlt2]

theorem grid_ext (n : Nat) (a b : grid) (ha : Shape n a) (hb : Shape n b)
    (h : ∀ i j : Nat, i < n → j < n → a.read i j = b.read i j) : a = b := by
  obtain ⟨an, ap⟩ := a
  obtain ⟨bn, bp⟩ := b
  have hn : an = bn := ha.1.trans hb.1.symm
  subst hn
  congr 1
  apply List.ext_get
  · exact ha.2.1.trans hb.2.1.symm
  · intro i h1 h2
    have hi : i < n := by have := ha.2.1; simp only at this; omega
    apply List.ext_get
    · exact (ha.2.2 _ (List.get_mem _ _ _)).trans (hb.2.2 _ (List.get_mem _ _ _)).symm
    · intro j h3 h4
      have hj : j < n := by
        have := ha.2.2 _ (List.get_mem ap i h1)
        omega
      obtain ⟨_, _, ea⟩ := read_of_shape n _ ha i j hi hj
      obtain ⟨_, _, eb⟩ := read_of_shape n _ hb i j hi hj
      have := h i j hi hj
      rw [ea, eb] at this
      exact Option.some.inj this

theorem runWorkers_marks (input : grid) (s : Nat) (hwf : input.WellFormed)
    (items : List ThreadData) (hitems : ItemsFor input s items) :
    Marks input.n (runWorkers items) (fun i j => ∃ d ∈ items, d.marks i j) := by
  refine marks_foldlM input.n items (fun output data => diagonalSumsThread data output)
    (fun d i j => d.marks i j) ?_
  intro d hd
  obtain ⟨h1, h2, h3⟩ := hitems d hd
  have := thread_marks d (h1 ▸ hwf) h3
  rw [h1] at this
  exact this

theorem runWorkers_zero (input : grid) (s : Nat) (hwf : input.WellFormed)
    (items : List ThreadData) (hitems : ItemsFor input s items) :
    ∃ out, runWorkers items (zeroGrid input.n) = some out ∧ Shape input.n out ∧
      ∀ i j : Nat, i < input.n → j < input.n →
        (out.read i j = some 1 ∧ ∃ d ∈ items, d.marks i j) ∨
        (out.read i j = some 0 ∧ ¬ ∃ d ∈ items, d.marks i j) := by
  obtain ⟨out, e, hs, hm⟩ := runWorkers_marks input s hwf items hitems _ (shape_zeroGrid input.n)
  refine ⟨out, e, hs, fun i j hi hj => ?_⟩
  by_cases hq : ∃ d ∈ items, d.marks i j
  · exact Or.inl ⟨(hm i j hi hj).1 hq, hq⟩
  · refine Or.inr ⟨?_, hq⟩
    rw [(hm i j hi hj).2 hq, read_zeroGrid _ _ _ hi hj]

theorem marks_lt {f : Family} {g : grid} {s a r c : Nat} (h : f.marks g s a r c) :
    2 ≤ f.maxLen g.n a := by
  obtain ⟨len, h1, h2, _⟩ := h
  omega

theorem items_marks_iff (input : grid) (s : Nat) (items : List ThreadData)
    (hitems : ItemsFor input s items) (hcov : Covering input.n items) (i j : Nat) :
    (∃ d ∈ items, d.marks i j) ↔ CandidateMarks input s i j := by
  constructor
  · rintro ⟨d, hd, hm⟩
    obtain ⟨h1, h2, _⟩ := hitems d hd
    rw [ThreadData.marks, h1, h2] at hm
    rcases hm with ⟨a, _, _, hm | hm⟩ | ⟨_, ⟨a, h3, h4, hm⟩ | ⟨a, h3, hm⟩⟩
    · refine ⟨.forwardFromLeftEdge, a, ?_, hm⟩
      have := marks_lt hm
      simp only [Family.maxLen] at this
      simp only [Family.validStart]
      omega
    · refine ⟨.backwardFromRightEdge, a, ?_, hm⟩
      have := marks_lt hm
      simp only [Family.maxLen] at this
      simp only [Family.validStart]
      omega
    · exact ⟨.forwardFromTopEdge, a, ⟨h3, h4⟩, hm⟩
    · exact ⟨.backwardFromTopEdge, a, h3, hm⟩
  · rintro ⟨f, a, hv, hm⟩
    cases f with
    | forwardFromLeftEdge =>
      obtain ⟨d, hd, h1, h2⟩ := hcov.1 a hv
      obtain ⟨e1, e2, _⟩ := hitems d hd
      exact ⟨d, hd, Or.inl ⟨a, h1, h2, Or.inl (by rw [e1, e2]; exact hm)⟩⟩
    | backwardFromRightEdge =>
      obtain ⟨d, hd, h1, h2⟩ := hcov.1 a hv
      obtain ⟨e1, e2, _⟩ := hitems d hd
      exact ⟨d, hd, Or.inl ⟨a, h1, h2, Or.inr (by rw [e1, e2]; exact hm)⟩⟩
    | forwardFromTopEdge =>
      obtain ⟨d, hd, h0⟩ := hcov.2
      obtain ⟨e1, e2, _⟩ := hitems d hd
      exact ⟨d, hd, Or.inr ⟨h0, Or.inl ⟨a, hv.1, by rw [e1]; exact hv.2, by rw [e1, e2]; exact hm⟩⟩⟩
    | backwardFromTopEdge =>
      obtain ⟨d, hd, h0⟩ := hcov.2
      obtain ⟨e1, e2, _⟩ := hitems d hd
      exact ⟨d, hd, Or.inr ⟨h0, Or.inr ⟨a, by rw [e1]; exact hv, by rw [e1, e2]; exact hm⟩⟩⟩


theorem workItems_one (input : grid) (s : Nat) :
    workItems input s 1 = [⟨input, s, 0, input.n⟩] := by
  simp [workItems]

theorem workItems_two (input : grid) (s : Nat) :
    workItems input s 2 =
      [⟨input, s, 0, (input.n : Int) / 2 + (if (0 : Int) < (input.n : Int) % 2 then 1 else 0)⟩,
       ⟨input, s, (input.n : Int) / 2 + (if (0 : Int) < (input.n : Int) % 2 then 1 else 0),
        input.n⟩] := by
  have h : forRange 0 1 = [0] := by decide
  simp [workItems, threadData, h]

theorem workItems_three (input : grid) (s : Nat) :
    workItems input s 3 =
      [⟨input, s, 0, (input.n : Int) / 3 + (if (0 : Int) < (input.n : Int) % 3 then 1 else 0)⟩,
       ⟨input, s, (input.n : Int) / 3 + (if (0 : Int) < (input.n : Int) % 3 then 1 else 0),
        (input.n : Int) / 3 + (if (0 : Int) < (input.n : Int) % 3 then 1 else 0)
          + (input.n : Int) / 3 + (if (1 : Int) < (input.n : Int) % 3 then 1 else 0)⟩,
       ⟨input, s, (input.n : Int) / 3 + (if (0 : Int) < (input.n : Int) % 3 then 1 else 0)
          + (input.n : Int) / 3 + (if (1 : Int) < (input.n : Int) % 3 then 1 else 0),
        input.n⟩] := by
  have h : forRange 0 2 = [0, 1] := by decide
  simp [workItems, threadData, h]

theorem diagonalSums_eq_run (input : grid) (s : Nat) (t : Int)
    (ht : t = 1 ∨ t = 2 ∨ t = 3) :
    diagonalSums input s t = runWorkers (workItems input s t) (zeroGrid input.n) := by
  rcases ht with rfl | rfl | rfl
  · simp [diagonalSums, workItems, runWorkers]
  · simp [diagonalSums, workItems]
  · simp [diagonalSums, workItems]

theorem workItems_itemsFor (input : grid) (s : Nat) (t : Int)
    (ht : t = 1 ∨ t = 2 ∨ t = 3) : ItemsFor input s (workItems input s t) := by
  rcases ht with rfl | rfl | rfl
  · intro d hd
    rw [workItems_one, List.mem_singleton] at hd
    subst hd
    exact ⟨rfl, rfl, le_refl _⟩
  · intro d hd
    rw [workItems_two] at hd
    simp only [List.mem_cons, List.mem_singleton, List.not_mem_nil, or_false] at hd
    rcases hd with rfl | rfl
    · exact ⟨rfl, rfl, le_refl _⟩
    · refine ⟨rfl, rfl, ?_⟩
      show (0 : Int) ≤ (input.n : Int) / 2 + (if (0 : Int) < (input.n : Int) % 2 then 1 else 0)
      split_ifs <;> omega
  · intro d hd
    rw [workItems_three] at hd
    simp only [List.mem_cons, List.mem_singleton, List.not_mem_nil, or_false] at hd
    rcases hd with rfl | rfl | rfl
    · exact ⟨rfl, rfl, le_refl _⟩
    · refine ⟨rfl, rfl, ?_⟩
      show (0 : Int) ≤ (input.n : Int) / 3 + (if (0 : Int) < (input.n : Int) % 3 then 1 else 0)
      split_ifs <;> omega
    · refine ⟨rfl, rfl, ?_⟩
      show (0 : Int) ≤ (input.n : Int) / 3 + (if (0 : Int) < (input.n : Int) % 3 then 1 else 0)
          + (input.n : Int) / 3 + (if (1 : Int) < (input.n : Int) % 3 then 1 else 0)
      split_ifs <;> omega

theorem workItems_covering (input : grid) (s : Nat) (t : Int)
    (ht : t = 1 ∨ t = 2 ∨ t = 3) : Covering input.n (workItems input s t) := by
  rcases ht with rfl | rfl | rfl
  · rw [workItems_one]
    refine ⟨fun a ha => ⟨_, List.mem_singleton.2 rfl, ?_, ?_⟩, _, List.mem_singleton.2 rfl, rfl⟩
    · show (0 : Int) ≤ a
      omega
    · show (a : Int) < input.n
      omega
  · rw [workItems_two]
    refine ⟨fun a ha => ?_, _, List.mem_cons_self _ _, rfl⟩
    simp only [List.mem_cons, List.mem_singleton, exists_eq_or_imp, exists_eq_left, List.not_mem_nil,
      false_and, exists_false, or_false]
    split_ifs <;> omega
  · rw [workItems_three]
    refine ⟨fun a ha => ?_, _, List.mem_cons_self _ _, rfl⟩
    simp only [List.mem_cons, List.mem_singleton, exists_eq_or_imp, exists_eq_left, List.not_mem_nil,
      false_and, exists_false, or_false]
    split_ifs <;> omega


theorem diagonalSums_spec (input : grid) (s : Nat) (t : Int) (hwf : input.WellFormed)
    (ht : t = 1 ∨ t = 2 ∨ t = 3) :
    ∃ out, diagonalSums input s t = some out ∧ Shape input.n out ∧
      ∀ i j : Nat, i < input.n → j < input.n →
        (out.read i j = some 1 ∧ CandidateMarks input s i j) ∨
        (out.read i j = some 0 ∧ ¬ CandidateMarks input s i j) := by
  have hi := workItems_itemsFor input s t ht
  obtain ⟨out, e, hs, h⟩ := runWorkers_zero input s hwf _ hi
  refine ⟨out, by rw [diagonalSums_eq_run input s t ht, e], hs, fun i j h1 h2 => ?_⟩
  have hiff := items_marks_iff input s _ hi (workItems_covering input s t ht) i j
  rw [← hiff]
  exact h i j h1 h2

theorem diagSum_congr (g : grid) (c1 c2 : Nat → Nat × Nat) (len : Nat)
    (h : ∀ k < len, c1 k = c2 k) : diagSum g c1 len = diagSum g c2 len := by
  unfold diagSum
  congr 1
  apply List.map_congr_left
  intro k hk
  rw [h k (List.mem_range.1 hk)]

theorem candidate_iff_edgeRun (g : grid) (s r c : Nat) :
    CandidateMarks g s r c ↔ OnMatchingEdgeRun g s r c := by
  constructor
  · rintro ⟨f, a, hv, len, h2, hmax, hsum, k, hk, hc⟩
    cases f with
    | forwardFromLeftEdge =>
      simp only [Family.maxLen, Family.cell, Family.validStart] at hv hmax hsum hc
      refine ⟨⟨.downRight, a, 0, len⟩, ⟨h2, by simp only; omega, by simp only; omega⟩,
        Or.inr rfl, ?_, k, hk, by simpa [Run.cell] using hc⟩
      rw [← hsum]
      exact diagSum_congr _ _ _ _ (fun k _ => by simp [Run.cell, Family.cell])
    | backwardFromRightEdge =>
      simp only [Family.maxLen, Family.cell, Family.validStart] at hv hmax hsum hc
      refine ⟨⟨.downLeft, a, g.n - 1, len⟩, ⟨h2, by simp only; omega, by simp only; omega⟩,
        Or.inr (by simp only; omega), ?_, k, hk, by simpa [Run.cell] using hc⟩
      rw [← hsum]
      exact diagSum_congr _ _ _ _ (fun k _ => by simp [Run.cell, Family.cell])
    | forwardFromTopEdge =>
      simp only [Family.maxLen, Family.cell, Family.validStart] at hv hmax hsum hc
      refine ⟨⟨.downRight, 0, a, len⟩, ⟨h2, by simp only; omega, by simp only; omega⟩,
        Or.inl rfl, ?_, k, hk, by simpa [Run.cell] using hc⟩
      rw [← hsum]
      exact diagSum_congr _ _ _ _ (fun k _ => by simp [Run.cell, Family.cell])
    | backwardFromTopEdge =>
      simp only [Family.maxLen, Family.cell, Family.validStart] at hv hmax hsum hc
      refine ⟨⟨.downLeft, 0, a, len⟩, ⟨h2, by simp only; omega, by simp only; omega⟩,
        Or.inl rfl, ?_, k, hk, by simpa [Run.cell] using hc⟩
      rw [← hsum]
      exact diagSum_congr _ _ _ _ (fun k _ => by simp [Run.cell, Family.cell])
  · rintro ⟨⟨dir, row, col, len⟩, ⟨h2, hrow, hdir⟩, hedge, hsum, k, hk, hc⟩
    cases dir with
    | downRight =>
      simp only [Run.FromEdge] at hedge
      simp only at hdir hrow h2 hk
      by_cases hcol : col = 0
      · subst hcol
        refine ⟨.forwardFromLeftEdge, row, by simp only [Family.validStart]; omega, len, h2,
          by simp only [Family.maxLen]; omega, ?_, k, hk, by simpa [Run.cell, Family.cell] using hc⟩
        rw [← hsum]
        exact diagSum_congr _ _ _ _ (fun k _ => by simp [Run.cell, Family.cell])
      · have hrow0 : row = 0 := by rcases hedge with h | h; exact h; exact absurd h hcol
        subst hrow0
        refine ⟨.forwardFromTopEdge, col, by simp only [Family.validStart]; omega, len, h2,
          by simp only [Family.maxLen]; omega, ?_, k, hk, by simpa [Run.cell, Family.cell] using hc⟩
        rw [← hsum]
        exact diagSum_congr _ _ _ _ (fun k _ => by simp [Run.cell, Family.cell])
    | downLeft =>
      simp only [Run.FromEdge] at hedge
      simp only at hdir hrow h2 hk
      by_cases hcol : col + 1 = g.n
      · have hcol' : col = g.n - 1 := by omega
        subst hcol'
        refine ⟨.backwardFromRightEdge, row, by simp only [Family.validStart]; omega, len, h2,
          by simp only [Family.maxLen]; omega, ?_, k, hk, by simpa [Run.cell, Family.cell] using hc⟩
        rw [← hsum]
        exact diagSum_congr _ _ _ _ (fun k _ => by simp [Run.cell, Family.cell])
      · have hrow0 : row = 0 := by rcases hedge with h | h; exact h; exact absurd h hcol
        subst hrow0
        refine ⟨.backwardFromTopEdge, col, by simp only [Family.validStart]; omega, len, h2,
          by simp only [Family.maxLen]; omega, ?_, k, hk, by simpa [Run.cell, Family.cell] using hc⟩
        rw [← hsum]
        exact diagSum_congr _ _ _ _ (fun k _ => by simp [Run.cell, Family.cell])


theorem writes_iff_marks (d : ThreadData) (hwf : d.input.WellFormed) (h0 : 0 ≤ d.startRow)
    (r c : Nat) (hr : r < d.input.n) (hc : c < d.input.n) :
    d.writes r c = true ↔ d.marks r c := by
  obtain ⟨out, e, _, hm⟩ := thread_marks d hwf h0 _ (shape_zeroGrid d.input.n)
  unfold ThreadData.writes
  rw [e]
  simp only [decide_eq_true_eq]
  constructor
  · intro h
    by_contra hn
    rw [(hm r c hr hc).2 hn, read_zeroGrid _ _ _ hr hc] at h
    exact absurd h (by decide)
  · exact (hm r c hr hc).1

theorem workItems_of_ne_one (input : grid) (s : Nat) (t : Int) (ht : t = 2 ∨ t = 3) :
    workItems input s t = threadData input s t := by
  rcases ht with rfl | rfl <;> simp [workItems]

/-! ## Claims -/

/-- C1 (as stated, refuted): in `innerRunGrid` with target 2 the cell `(1,1)` lies on the
run `(1,1), (2,2)`, which sums to 2, and yet `diagonalSums` leaves it at 0: a matching
run that does not begin on a grid edge is not marked. -/
theorem C1_inner_run_not_marked :
    innerRunGrid.WellFormed ∧ OnMatchingRun innerRunGrid 2 1 1 ∧
      ∃ out, diagonalSums innerRunGrid 2 1 = some out ∧ out.read 1 1 = some 0 := by
  refine ⟨by decide, ⟨⟨.downRight, 1, 1, 2⟩, ?_, by decide, 0, by decide, by decide⟩,
    ⟨3, [[0, 0, 0], [0, 0, 0], [0, 0, 0]]⟩, by decide, by decide⟩
  simp [Run.InGrid, innerRunGrid]

/-- C1 (amended): for every well-formed square grid, every target `s` and every thread
count in {1,2,3}, `diagonalSums` returns a grid in which a cell `(r,c)` is 1 if and only
if it lies on a run of at least 2 cells that begins on its grid edge (top row, or left
column going down-right, or right column going down-left) and sums to exactly `s`. -/
theorem C1_marked_iff_on_matching_edge_run (input : grid) (s : Nat) (t : Int)
    (hwf : input.WellFormed) (ht : t = 1 ∨ t = 2 ∨ t = 3) :
    ∃ out, diagonalSums input s t = some out ∧
      ∀ r c : Nat, r < input.n → c < input.n →
        (out.read r c = some 1 ↔ OnMatchingEdgeRun input s r c) := by
  obtain ⟨out, e, _, h⟩ := diagonalSums_spec input s t hwf ht
  refine ⟨out, e, fun r c hr hc => ?_⟩
  rw [← candidate_iff_edgeRun]
  rcases h r c hr hc with ⟨h1, h2⟩ | ⟨h1, h2⟩
  · exact ⟨fun _ => h2, fun _ => h1⟩
  · exact ⟨fun h' => by rw [h1] at h'; exact absurd h' (by decide), fun h' => absurd h' h2⟩

/-- C1 (amended) at the grid of ones with target 2 and three threads. -/
theorem C1_marked_iff_on_matching_edge_run_witness :
    ∃ out, diagonalSums onesGrid 2 3 = some out ∧
      ∀ r c : Nat, r < onesGrid.n → c < onesGrid.n →
        (out.read r c = some 1 ↔ OnMatchingEdgeRun onesGrid 2 r c) :=
  C1_marked_iff_on_matching_edge_run onesGrid 2 3 (by decide) (by decide)

/-- C2: for every well-formed square grid, every target `s` and every thread count in
{1,2,3}, every cell that `diagonalSums` leaves at 1 lies on a contiguous diagonal run of
at least 2 cells whose values sum to `s`, and every cell that lies on no such run is 0. -/
theorem C2_no_spurious_marks (input : grid) (s : Nat) (t : Int)
    (hwf : input.WellFormed) (ht : t = 1 ∨ t = 2 ∨ t = 3) :
    ∃ out, diagonalSums input s t = some out ∧
      ∀ r c : Nat, r < input.n → c < input.n →
        (out.read r c = some 1 → OnMatchingRun input s r c) ∧
        (¬ OnMatchingRun input s r c → out.read r c = some 0) := by
  obtain ⟨out, e, _, h⟩ := diagonalSums_spec input s t hwf ht
  refine ⟨out, e, fun r c hr hc => ?_⟩
  have himp : CandidateMarks input s r c → OnMatchingRun input s r c := by
    intro hm
    obtain ⟨u, h1, _, h3, h4⟩ := (candidate_iff_edgeRun input s r c).1 hm
    exact ⟨u, h1, h3, h4⟩
  rcases h r c hr hc with ⟨h1, h2⟩ | ⟨h1, h2⟩
  · exact ⟨fun _ => himp h2, fun h' => absurd (himp h2) h'⟩
  · exact ⟨fun h' => by rw [h1] at h'; exact absurd h' (by decide), fun _ => h1⟩

/-- C2 at the grid with an inner run, target 2, two threads. -/
theorem C2_no_spurious_marks_witness :
    ∃ out, diagonalSums innerRunGrid 2 2 = some out ∧
      ∀ r c : Nat, r < innerRunGrid.n → c < innerRunGrid.n →
        (out.read r c = some 1 → OnMatchingRun innerRunGrid 2 r c) ∧
        (¬ OnMatchingRun innerRunGrid 2 r c → out.read r c = some 0) :=
  C2_no_spurious_marks innerRunGrid 2 2 (by decide) (by decide)

/-- C3: for every well-formed square grid and every target, `diagonalSums` returns a
grid for 1, 2 and 3 threads, and the three grids are equal (the workers of the
multi-thread branch running one after another). -/
theorem C3_thread_count_independence (input : grid) (s : Nat) (hwf : input.WellFormed) :
    (∃ out, diagonalSums input s 1 = some out) ∧
      diagonalSums input s 2 = diagonalSums input s 1 ∧
      diagonalSums input s 3 = diagonalSums input s 1 := by
  obtain ⟨o1, e1, s1, h1⟩ := diagonalSums_spec input s 1 hwf (by decide)
  obtain ⟨o2, e2, s2, h2⟩ := diagonalSums_spec input s 2 hwf (by decide)
  obtain ⟨o3, e3, s3, h3⟩ := diagonalSums_spec input s 3 hwf (by decide)
  have key : ∀ a b : grid, Shape input.n a → Shape input.n b →
      (∀ i j : Nat, i < input.n → j < input.n →
        (a.read i j = some 1 ∧ CandidateMarks input s i j) ∨
        (a.read i j = some 0 ∧ ¬ CandidateMarks input s i j)) →
      (∀ i j : Nat, i < input.n → j < input.n →
        (b.read i j = some 1 ∧ CandidateMarks input s i j) ∨
        (b.read i j = some 0 ∧ ¬ CandidateMarks input s i j)) → a = b := by
    intro a b sa sb ha hb
    refine grid_ext input.n a b sa sb (fun i j hi hj => ?_)
    rcases ha i j hi hj with ⟨x1, x2⟩ | ⟨x1, x2⟩ <;> rcases hb i j hi hj with ⟨y1, y2⟩ | ⟨y1, y2⟩
    · rw [x1, y1]
    · exact absurd x2 y2
    · exact absurd y2 x2
    · rw [x1, y1]
  refine ⟨⟨o1, e1⟩, ?_, ?_⟩
  · rw [e1, e2, key o2 o1 s2 s1 h2 h1]
  · rw [e1, e3, key o3 o1 s3 s1 h3 h1]

/-- C3 at a 2-by-2 grid, where the third worker gets an empty row range. -/
theorem C3_thread_count_independence_witness :
    (∃ out, diagonalSums smallGrid 4 1 = some out) ∧
      diagonalSums smallGrid 4 2 = diagonalSums smallGrid 4 1 ∧
      diagonalSums smallGrid 4 3 = diagonalSums smallGrid 4 1 :=
  C3_thread_count_independence smallGrid 4 (by decide)


/-- C4 (as stated, refuted): on the grid of ones with target 2 and three threads, the
workers of the row ranges `[0,1)` and `[1,2)` both set the cell `(1,2)`: the first
through the top-edge candidate `(0,1), (1,2)`, the second through the right-edge
candidate `(1,2), (2,1)`. The write sets of different workers are not disjoint. -/
theorem C4_two_workers_write_same_cell :
    (threadData onesGrid 2 3)[0]? = some ⟨onesGrid, 2, 0, 1⟩ ∧
      (threadData onesGrid 2 3)[1]? = some ⟨onesGrid, 2, 1, 2⟩ ∧
      ThreadData.writes ⟨onesGrid, 2, 0, 1⟩ 1 2 = true ∧
      ThreadData.writes ⟨onesGrid, 2, 1, 2⟩ 1 2 = true := by
  decide

/-- C4 (amended): for every well-formed square grid, every target and every thread count
in {2,3}, a worker of `diagonalSums`, started on any output grid of the right shape, sets
to 1 exactly the cells of the matching candidates it scans (`ThreadData.marks`: those of
the two row families started in the rows of its range and, for the worker whose range
starts at row 0, those of the two top-edge families) and leaves every other cell as it
found it; a second worker started on the grid the first one leaves does the same, so a
cell on matching candidates of both is set to 1 by both. These cells are the write set
of the worker (`ThreadData.writes`); write sets of different workers may overlap. -/
theorem C4_workers_set_their_candidates_only (input : grid) (s : Nat) (t : Int)
    (hwf : input.WellFormed) (ht : t = 2 ∨ t = 3) (d1 d2 : ThreadData)
    (hd1 : d1 ∈ threadData input s t) (hd2 : d2 ∈ threadData input s t)
    (out : grid) (hout : Shape input.n out) :
    ∃ out1 out2, diagonalSumsThread d1 out = some out1 ∧
      diagonalSumsThread d2 out1 = some out2 ∧ Shape input.n out1 ∧ Shape input.n out2 ∧
      ∀ r c : Nat, r < input.n → c < input.n →
        (d1.marks r c → out1.read r c = some 1) ∧
        (¬ d1.marks r c → out1.read r c = out.read r c) ∧
        (d2.marks r c → out2.read r c = some 1) ∧
        (¬ d2.marks r c → out2.read r c = out1.read r c) ∧
        (d1.writes r c = true ↔ d1.marks r c) ∧
        (d2.writes r c = true ↔ d2.marks r c) := by
  have ht' : t = 1 ∨ t = 2 ∨ t = 3 := Or.inr ht
  rw [← workItems_of_ne_one input s t ht] at hd1 hd2
  obtain ⟨a1, _, a3⟩ := workItems_itemsFor input s t ht' d1 hd1
  obtain ⟨b1, _, b3⟩ := workItems_itemsFor input s t ht' d2 hd2
  have hwf1 : d1.input.WellFormed := a1 ▸ hwf
  have hwf2 : d2.input.WellFormed := b1 ▸ hwf
  have hm1 := thread_marks d1 hwf1 a3
  have hm2 := thread_marks d2 hwf2 b3
  rw [a1] at hm1
  rw [b1] at hm2
  obtain ⟨out1, e1, m1⟩ := hm1 out hout
  obtain ⟨out2, e2, m2⟩ := hm2 out1 m1.1
  refine ⟨out1, out2, e1, e2, m1.1, m2.1, fun r c hr hc => ?_⟩
  exact ⟨(m1.2 r c hr hc).1, (m1.2 r c hr hc).2, (m2.2 r c hr hc).1, (m2.2 r c hr hc).2,
    writes_iff_marks d1 hwf1 a3 r c (a1 ▸ hr) (a1 ▸ hc),
    writes_iff_marks d2 hwf2 b3 r c (b1 ▸ hr) (b1 ▸ hc)⟩

/-- C4 (amended) at the grid of ones with three threads: the workers of the row ranges
`[0,1)` and `[1,2)`, one after the other from the zero-initialised grid. -/
theorem C4_workers_set_their_candidates_only_witness :
    ∃ out1 out2, diagonalSumsThread ⟨onesGrid, 2, 0, 1⟩ (zeroGrid 3) = some out1 ∧
      diagonalSumsThread ⟨onesGrid, 2, 1, 2⟩ out1 = some out2 ∧
      Shape onesGrid.n out1 ∧ Shape onesGrid.n out2 ∧
      ∀ r c : Nat, r < onesGrid.n → c < onesGrid.n →
        (ThreadData.marks ⟨onesGrid, 2, 0, 1⟩ r c → out1.read r c = some 1) ∧
        (¬ ThreadData.marks ⟨onesGrid, 2, 0, 1⟩ r c →
          out1.read r c = (zeroGrid 3).read r c) ∧
        (ThreadData.marks ⟨onesGrid, 2, 1, 2⟩ r c → out2.read r c = some 1) ∧
        (¬ ThreadData.marks ⟨onesGrid, 2, 1, 2⟩ r c → out2.read r c = out1.read r c) ∧
        (ThreadData.writes ⟨onesGrid, 2, 0, 1⟩ r c = true ↔
          ThreadData.marks ⟨onesGrid, 2, 0, 1⟩ r c) ∧
        (ThreadData.writes ⟨onesGrid, 2, 1, 2⟩ r c = true ↔
          ThreadData.marks ⟨onesGrid, 2, 1, 2⟩ r c) :=
  C4_workers_set_their_candidates_only onesGrid 2 3 (by decide) (by decide)
    ⟨onesGrid, 2, 0, 1⟩ ⟨onesGrid, 2, 1, 2⟩ (by decide) (by decide) (zeroGrid 3) (by decide)

/-- C5: for every grid side `n ≥ 0` and every thread count `t` in {1,2,3}, `diagonalSums`
builds `t` row ranges `[startRow, endRow)`; the first begins at row 0, each further one
begins where the previous one ends, the last ends at row `n`, no range has its end before
its start, and every row of `[0, n)` belongs to exactly one range. -/
theorem C5_row_ranges_partition (input : grid) (s : Nat) (t : Int)
    (ht : t = 1 ∨ t = 2 ∨ t = 3) :
    ((workItems input s t).length : Int) = t ∧
      (workItems input s t).head?.map ThreadData.startRow = some 0 ∧
      (workItems input s t).getLast?.map ThreadData.endRow = some (input.n : Int) ∧
      List.Chain' (fun a b : ThreadData => a.endRow = b.startRow) (workItems input s t) ∧
      (∀ d ∈ workItems input s t, d.startRow ≤ d.endRow) ∧
      ∀ r : Int, 0 ≤ r → r < input.n →
        (workItems input s t).countP (fun d => decide (d.startRow ≤ r ∧ r < d.endRow)) = 1 := by
  rcases ht with rfl | rfl | rfl
  · rw [workItems_one]
    refine ⟨rfl, rfl, rfl, List.chain'_singleton _, ?_, ?_⟩
    · intro d hd
      rw [List.mem_singleton] at hd
      subst hd
      show (0 : Int) ≤ input.n
      omega
    · intro r h0 h1
      simp [List.countP_cons, h0, h1]
  · rw [workItems_two]
    refine ⟨rfl, rfl, rfl, by simp, ?_, ?_⟩
    · intro d hd
      simp only [List.mem_cons, List.mem_singleton, List.not_mem_nil, or_false] at hd
      rcases hd with rfl | rfl
      · dsimp only
        split_ifs <;> omega
      · dsimp only
        split_ifs <;> omega
    · intro r h0 h1
      simp only [List.countP_cons, List.countP_nil, decide_eq_true_eq]
      split_ifs <;> omega
  · rw [workItems_three]
    refine ⟨rfl, rfl, rfl, by simp, ?_, ?_⟩
    · intro d hd
      simp only [List.mem_cons, List.mem_singleton, List.not_mem_nil, or_false] at hd
      rcases hd with rfl | rfl | rfl
      · dsimp only
        split_ifs <;> omega
      · dsimp only
        split_ifs <;> omega
      · dsimp only
        split_ifs <;> omega
    · intro r h0 h1
      simp only [List.countP_cons, List.countP_nil, decide_eq_true_eq]
      split_ifs <;> omega

/-- C5 at a grid of side 2 with three threads: the ranges are `[0,1)`, `[1,2)` and the
empty `[2,2)`. -/
theorem C5_row_ranges_partition_witness :
    ((workItems smallGrid 4 3).length : Int) = 3 ∧
      (workItems smallGrid 4 3).head?.map ThreadData.startRow = some 0 ∧
      (workItems smallGrid 4 3).getLast?.map ThreadData.endRow = some (smallGrid.n : Int) ∧
      List.Chain' (fun a b : ThreadData => a.endRow = b.startRow) (workItems smallGrid 4 3) ∧
      (∀ d ∈ workItems smallGrid 4 3, d.startRow ≤ d.endRow) ∧
      ∀ r : Int, 0 ≤ r → r < smallGrid.n →
        (workItems smallGrid 4 3).countP (fun d => decide (d.startRow ≤ r ∧ r < d.endRow)) = 1 :=
  C5_row_ranges_partition smallGrid 4 3 (by decide)

/-- C6: on the 3-by-3 grid of ones with target 2, for 1, 2 and 3 threads alike,
`diagonalSums` returns the grid whose cells at 1 are exactly those of the six length-2
candidates `(0,0),(1,1)` and `(1,0),(2,1)` (forward from the left edge), `(0,2),(1,1)`
and `(1,2),(2,1)` (backward from the right edge), `(0,1),(1,2)` (forward from the top
edge) and `(0,1),(1,0)` (backward from the top edge); the four length-3 candidates sum to
3 and match nothing, and the cells `(2,0)` and `(2,2)`, which only length-3 candidates
contain, stay 0. -/
theorem C6_grid_of_ones_scenario :
    (diagonalSums onesGrid 2 1 = some ⟨3, [[1, 1, 1], [1, 1, 1], [0, 1, 0]]⟩ ∧
      diagonalSums onesGrid 2 2 = some ⟨3, [[1, 1, 1], [1, 1, 1], [0, 1, 0]]⟩ ∧
      diagonalSums onesGrid 2 3 = some ⟨3, [[1, 1, 1], [1, 1, 1], [0, 1, 0]]⟩) ∧
    (∀ r < 3, ∀ c < 3,
      (grid.read ⟨3, [[1, 1, 1], [1, 1, 1], [0, 1, 0]]⟩ (r : Nat) (c : Nat) = some 1 ↔
        (r, c) ∈ [(0, 0), (1, 1), (1, 0), (2, 1), (0, 2), (1, 1), (1, 2), (2, 1),
          (0, 1), (1, 2), (0, 1), (1, 0)])) ∧
    ((List.range 2).map (Family.forwardFromLeftEdge.cell 3 0) = [(0, 0), (1, 1)] ∧
      (List.range 2).map (Family.forwardFromLeftEdge.cell 3 1) = [(1, 0), (2, 1)] ∧
      (List.range 2).map (Family.backwardFromRightEdge.cell 3 0) = [(0, 2), (1, 1)] ∧
      (List.range 2).map (Family.backwardFromRightEdge.cell 3 1) = [(1, 2), (2, 1)] ∧
      (List.range 2).map (Family.forwardFromTopEdge.cell 3 1) = [(0, 1), (1, 2)] ∧
      (List.range 2).map (Family.backwardFromTopEdge.cell 3 1) = [(0, 1), (1, 0)]) ∧
    (diagSum onesGrid (Family.forwardFromLeftEdge.cell 3 0) 3 = 3 ∧
      diagSum onesGrid (Family.backwardFromRightEdge.cell 3 0) 3 = 3 ∧
      (List.range 3).map (Family.forwardFromLeftEdge.cell 3 0) = [(0, 0), (1, 1), (2, 2)] ∧
      (List.range 3).map (Family.backwardFromRightEdge.cell 3 0) = [(0, 2), (1, 1), (2, 0)]) ∧
    (grid.read ⟨3, [[1, 1, 1], [1, 1, 1], [0, 1, 0]]⟩ 2 0 = some 0 ∧
      grid.read ⟨3, [[1, 1, 1], [1, 1, 1], [0, 1, 0]]⟩ 2 2 = some 0) ∧
    (∀ (f : Family) (a len k : Nat), f.validStart 3 a → 2 ≤ len → len ≤ f.maxLen 3 a →
      k < len → f.cell 3 a k = (2, 0) ∨ f.cell 3 a k = (2, 2) → len = 3) := by
  refine ⟨by decide, by decide, by decide, by decide, by decide, ?_⟩
  intro f a len k hv h2 hmax hk hc
  cases f <;>
    simp only [Family.validStart, Family.maxLen, Family.cell, Prod.mk.injEq] at hv hmax hc <;>
    omega

/-- C7: for every 1-by-1 grid, whatever its cell `v`, every target `s` and every thread
count in {1,2,3}, `diagonalSums` returns the 1-by-1 grid whose only cell is 0. -/
theorem C7_single_cell_grid (v s : Nat) (t : Int) (ht : t = 1 ∨ t = 2 ∨ t = 3) :
    diagonalSums ⟨1, [[v]]⟩ s t = some ⟨1, [[0]]⟩ := by
  rcases ht with rfl | rfl | rfl
  · rfl
  · rw [diagonalSums_eq_run _ _ _ (by decide), workItems_two]
    simp only [Nat.cast_one]
    rfl
  · rw [diagonalSums_eq_run _ _ _ (by decide), workItems_three]
    simp only [Nat.cast_one]
    rfl

/-- C7 with the target equal to the value of the single cell. -/
theorem C7_single_cell_grid_witness : diagonalSums ⟨1, [[7]]⟩ 7 2 = some ⟨1, [[0]]⟩ :=
  C7_single_cell_grid 7 7 2 (by decide)

/-- C8: for every well-formed square grid, every target and every thread count in
{1,2,3}, the grid returned by `diagonalSums` has the side `n` of the input, exactly `n`
rows of exactly `n` cells, and every cell is 0 or 1. -/
theorem C8_marker_grid_shape_and_range (input : grid) (s : Nat) (t : Int)
    (hwf : input.WellFormed) (ht : t = 1 ∨ t = 2 ∨ t = 3) :
    ∃ out, diagonalSums input s t = some out ∧ out.n = input.n ∧
      out.p.length = input.n ∧
      ∀ row ∈ out.p, row.length = input.n ∧ ∀ v ∈ row, v = 0 ∨ v = 1 := by
  obtain ⟨out, e, hs, h⟩ := diagonalSums_spec input s t hwf ht
  refine ⟨out, e, hs.1, hs.2.1, fun row hrow => ⟨hs.2.2 row hrow, fun v hv => ?_⟩⟩
  obtain ⟨i, hi, rfl⟩ := List.getElem_of_mem hrow
  obtain ⟨j, hj, rfl⟩ := List.getElem_of_mem hv
  have hi' : i < input.n := by have := hs.2.1; omega
  have hj' : j < input.n := by have := hs.2.2 _ hrow; omega
  obtain ⟨_, _, er⟩ := read_of_shape input.n out hs i j hi' hj'
  rcases h i j hi' hj' with ⟨h1, _⟩ | ⟨h1, _⟩
  · rw [er] at h1
    exact Or.inr (Option.some.inj h1)
  · rw [er] at h1
    exact Or.inl (Option.some.inj h1)

/-- C8 at the grid of ones, target 2, three threads. -/
theorem C8_marker_grid_shape_and_range_witness :
    ∃ out, diagonalSums onesGrid 2 3 = some out ∧ out.n = onesGrid.n ∧
      out.p.length = onesGrid.n ∧
      ∀ row ∈ out.p, row.length = onesGrid.n ∧ ∀ v ∈ row, v = 0 ∨ v = 1 :=
  C8_marker_grid_shape_and_range onesGrid 2 3 (by decide) (by decide)

/-- C9: for every well-formed square grid, every target and every thread count in
{1,2,3}, running the workers of the row ranges built by `diagonalSums` one after another
in any order gives the grid `diagonalSums` returns, which exists; the output is a
function of the input and the target alone. -/
theorem C9_worker_order_independence (input : grid) (s : Nat) (t : Int)
    (hwf : input.WellFormed) (ht : t = 1 ∨ t = 2 ∨ t = 3) (items : List ThreadData)
    (hperm : items.Perm (workItems input s t)) :
    (∃ out, diagonalSums input s t = some out) ∧
      runWorkers items (zeroGrid input.n) = diagonalSums input s t := by
  have hi := workItems_itemsFor input s t ht
  have hi' : ItemsFor input s items := fun d hd => hi d (hperm.mem_iff.1 hd)
  obtain ⟨o1, e1, s1, h1⟩ := runWorkers_zero input s hwf _ hi
  obtain ⟨o2, e2, s2, h2⟩ := runWorkers_zero input s hwf _ hi'
  rw [diagonalSums_eq_run input s t ht, e1, e2]
  refine ⟨⟨o1, rfl⟩, congrArg some (grid_ext input.n o2 o1 s2 s1 (fun i j hi hj => ?_))⟩
  have hiff : (∃ d ∈ items, d.marks i j) ↔ ∃ d ∈ workItems input s t, d.marks i j :=
    ⟨fun ⟨d, hd, hm⟩ => ⟨d, hperm.mem_iff.1 hd, hm⟩,
     fun ⟨d, hd, hm⟩ => ⟨d, hperm.mem_iff.2 hd, hm⟩⟩
  rcases h1 i j hi hj with ⟨x1, x2⟩ | ⟨x1, x2⟩ <;> rcases h2 i j hi hj with ⟨y1, y2⟩ | ⟨y1, y2⟩
  · rw [x1, y1]
  · exact absurd (hiff.2 x2) y2
  · exact absurd (hiff.1 y2) x2
  · rw [x1, y1]

/-- C9 at the grid of ones with three threads, the workers taken in reverse order. -/
theorem C9_worker_order_independence_witness :
    (∃ out, diagonalSums onesGrid 2 3 = some out) ∧
      runWorkers [⟨onesGrid, 2, 2, 3⟩, ⟨onesGrid, 2, 1, 2⟩, ⟨onesGrid, 2, 0, 1⟩]
        (zeroGrid onesGrid.n) = diagonalSums onesGrid 2 3 :=
  C9_worker_order_independence onesGrid 2 3 (by decide) (by decide)
    [⟨onesGrid, 2, 2, 3⟩, ⟨onesGrid, 2, 1, 2⟩, ⟨onesGrid, 2, 0, 1⟩] (by decide)


/-- C10: for every well-formed square grid, every target `s` and every thread count in
{1,2,3}, a cell of the grid returned by `diagonalSums` is 1 if and only if it is one of
the first `len` cells from a start of one of the four families, for a length
`2 ≤ len ≤ maxLen` whose first `len` cells sum to exactly `s` (starts `(r,0)` down-right
and `(r,n-1)` down-left with `maxLen = n-r` for `r` in `[0,n-1]`, `(0,c)` down-right with
`maxLen = n-c` for `c` in `[1,n-1]`, `(0,c)` down-left with `maxLen = c+1` for `c` in
`[0,n-2]`). Moreover each single procedure call from a valid start, on any output grid of
the right shape, sets the cells of its matching candidates to 1 and changes no other
cell. -/
theorem C10_enumeration_characterisation (input : grid) (s : Nat) (t : Int)
    (hwf : input.WellFormed) (ht : t = 1 ∨ t = 2 ∨ t = 3) :
    (∃ out, diagonalSums input s t = some out ∧
      ∀ r c : Nat, r < input.n → c < input.n →
        (out.read r c = some 1 ↔
          ∃ (f : Family) (a len : Nat), f.validStart input.n a ∧ 2 ≤ len ∧
            len ≤ f.maxLen input.n a ∧ diagSum input (f.cell input.n a) len = s ∧
            ∃ k < len, f.cell input.n a k = (r, c))) ∧
    ∀ (f : Family) (a : Nat), f.validStart input.n a →
      ∀ out, Shape input.n out →
        ∃ out', f.run input s out a = some out' ∧ Shape input.n out' ∧
          ∀ r c : Nat, r < input.n → c < input.n →
            (f.marks input s a r c → out'.read r c = some 1) ∧
            (¬ f.marks input s a r c → out'.read r c = out.read r c) := by
  constructor
  · obtain ⟨out, e, _, h⟩ := diagonalSums_spec input s t hwf ht
    refine ⟨out, e, fun r c hr hc => ?_⟩
    have hiff : CandidateMarks input s r c ↔
        ∃ (f : Family) (a len : Nat), f.validStart input.n a ∧ 2 ≤ len ∧
          len ≤ f.maxLen input.n a ∧ diagSum input (f.cell input.n a) len = s ∧
          ∃ k < len, f.cell input.n a k = (r, c) :=
      ⟨fun ⟨f, a, hv, len, h1, h2, h3, h4⟩ => ⟨f, a, len, hv, h1, h2, h3, h4⟩,
       fun ⟨f, a, len, hv, h1, h2, h3, h4⟩ => ⟨f, a, hv, len, h1, h2, h3, h4⟩⟩
    rw [← hiff]
    rcases h r c hr hc with ⟨h1, h2⟩ | ⟨h1, h2⟩
    · exact ⟨fun _ => h2, fun _ => h1⟩
    · exact ⟨fun h' => by rw [h1] at h'; exact absurd h' (by decide), fun h' => absurd h' h2⟩
  · intro f a hv out hout
    cases f with
    | forwardFromLeftEdge => exact forwardLeft_marks input s hwf a out hout
    | backwardFromRightEdge => exact backwardRight_marks input s hwf a out hout
    | forwardFromTopEdge => exact forwardTop_marks input s hwf a out hout
    | backwardFromTopEdge =>
      refine backwardTop_marks input s hwf a ?_ out hout
      simp only [Family.validStart] at hv
      omega

/-- C10 at the grid of ones, target 2, two threads. -/
theorem C10_enumeration_characterisation_witness :
    (∃ out, diagonalSums onesGrid 2 2 = some out ∧
      ∀ r c : Nat, r < onesGrid.n → c < onesGrid.n →
        (out.read r c = some 1 ↔
          ∃ (f : Family) (a len : Nat), f.validStart onesGrid.n a ∧ 2 ≤ len ∧
            len ≤ f.maxLen onesGrid.n a ∧ diagSum onesGrid (f.cell onesGrid.n a) len = 2 ∧
            ∃ k < len, f.cell onesGrid.n a k = (r, c))) ∧
    ∀ (f : Family) (a : Nat), f.validStart onesGrid.n a →
      ∀ out, Shape onesGrid.n out →
        ∃ out', f.run onesGrid 2 out a = some out' ∧ Shape onesGrid.n out' ∧
          ∀ r c : Nat, r < onesGrid.n → c < onesGrid.n →
            (f.marks onesGrid 2 a r c → out'.read r c = some 1) ∧
            (¬ f.marks onesGrid 2 a r c → out'.read r c = out.read r c) :=
  C10_enumeration_characterisation onesGrid 2 2 (by decide) (by decide)


/-! ## Call traces -/

theorem runCalls_append (input : grid) (s : Nat) (xs ys : List (Family × Int)) (out : grid) :
    runCalls input s (xs ++ ys) out = (runCalls input s xs out).bind (runCalls input s ys) := by
  unfold runCalls
  rw [List.foldlM_append]
  rfl

theorem runCalls_rowFamilies (input : grid) (s : Nat) (xs : List Int) (out : grid) :
    runCalls input s (xs.flatMap (fun i =>
      [(Family.forwardFromLeftEdge, i), (Family.backwardFromRightEdge, i)])) out =
    xs.foldlM (fun output i => do
      let output ← processForwardDiagonalFromLeftEdge input s output i
      processBackwardDiagonalFromRightEdge input s output i) out := by
  induction xs generalizing out with
  | nil => rfl
  | cons x xs ih =>
    rw [List.flatMap_cons, runCalls_append, List.foldlM_cons]
    show ((processForwardDiagonalFromLeftEdge input s out x).bind fun o =>
      (processBackwardDiagonalFromRightEdge input s o x).bind fun o2 => some o2).bind _ = _
    cases h1 : processForwardDiagonalFromLeftEdge input s out x with
    | none => rfl
    | some o =>
      cases h2 : processBackwardDiagonalFromRightEdge input s o x with
      | none => simp [h2]
      | some o2 => simp [h2, ih]

theorem runCalls_map (input : grid) (s : Nat) (f : Family) (xs : List Int) (out : grid) :
    runCalls input s (xs.map (fun j => (f, j))) out =
      xs.foldlM (fun output j => f.run input s output j) out := by
  induction xs generalizing out with
  | nil => rfl
  | cons x xs ih =>
    show runCalls input s ([(f, x)] ++ xs.map (fun j => (f, j))) out = _
    rw [runCalls_append, List.foldlM_cons]
    show ((f.run input s out x).bind fun o => some o).bind _ = _
    cases h1 : f.run input s out x with
    | none => rfl
    | some o => simp [ih]

theorem thread_eq_runCalls (d : ThreadData) (out : grid) :
    diagonalSumsThread d out = runCalls d.input d.s d.calls out := by
  unfold ThreadData.calls ThreadData.rowCalls ThreadData.topCalls
  rw [runCalls_append, runCalls_rowFamilies]
  by_cases h0 : d.startRow = 0
  · simp only [h0, if_true]
    unfold diagonalSumsThread
    simp only [h0, if_true]
    congr 1
    funext o
    rw [runCalls_append, runCalls_map]
    show Option.bind _ _ = Option.bind _ _
    congr 1
    funext o2
    rw [runCalls_map]
    rfl
  · simp only [h0, if_false]
    unfold diagonalSumsThread
    simp only [h0, if_false]
    congr 1

theorem nodup_forRange (lo hi : Int) : (forRange lo hi).Nodup := by
  unfold forRange
  refine List.Nodup.map ?_ (List.nodup_range _)
  intro a b h
  simp only at h
  omega

theorem count_forRange (lo hi r : Int) :
    (forRange lo hi).count r = if lo ≤ r ∧ r < hi then 1 else 0 := by
  rw [List.count_eq_of_nodup (nodup_forRange lo hi)]
  simp only [mem_forRange]

theorem count_rowFamilies (xs : List Int) (f : Family) (r : Int) :
    (xs.flatMap (fun i =>
      [(Family.forwardFromLeftEdge, i), (Family.backwardFromRightEdge, i)])).count (f, r) =
    if f = Family.forwardFromLeftEdge ∨ f = Family.backwardFromRightEdge then xs.count r
    else 0 := by
  induction xs with
  | nil => simp
  | cons x xs ih =>
    rw [List.flatMap_cons, List.count_append, ih]
    cases f <;> by_cases hx : x = r <;> simp [List.count_cons, hx, Nat.add_comm]

theorem count_mapFamily (xs : List Int) (f g : Family) (c : Int) :
    (xs.map (fun j => (f, j))).count (g, c) = if f = g then xs.count c else 0 := by
  induction xs with
  | nil => simp
  | cons x xs ih =>
    rw [List.map_cons, List.count_cons, ih]
    by_cases hfg : f = g <;> by_cases hx : x = c <;> simp [List.count_cons, hfg, hx]

theorem count_calls (d : ThreadData) (f : Family) (a : Int) :
    d.calls.count (f, a) =
      match f with
      | .forwardFromLeftEdge => if d.startRow ≤ a ∧ a < d.endRow then 1 else 0
      | .backwardFromRightEdge => if d.startRow ≤ a ∧ a < d.endRow then 1 else 0
      | .forwardFromTopEdge => if d.startRow = 0 ∧ 1 ≤ a ∧ a < d.input.n then 1 else 0
      | .backwardFromTopEdge => if d.startRow = 0 ∧ 0 ≤ a ∧ a < (d.input.n : Int) - 1 then 1 else 0 := by
  unfold ThreadData.calls ThreadData.rowCalls ThreadData.topCalls
  rw [List.count_append, count_rowFamilies]
  by_cases h0 : d.startRow = 0
  · simp only [h0, if_true, List.count_append, count_mapFamily, count_forRange]
    cases f <;> simp
  · simp only [h0, if_false, List.count_nil, count_forRange]
    cases f <;> simp

theorem count_allCalls (input : grid) (s : Nat) (t : Int) (f : Family) (a : Int) :
    (allCalls input s t).count (f, a) =
      ((workItems input s t).map (fun d => d.calls.count (f, a))).sum := by
  unfold allCalls
  induction workItems input s t with
  | nil => rfl
  | cons d ds ih => rw [List.flatMap_cons, List.count_append, ih, List.map_cons, List.sum_cons]

/-- C11: for every grid side `n ≥ 1` and every thread count in {1,2,3}, each worker
performs exactly the procedure calls of its call trace, and over all workers of
`diagonalSums` the forward scan from the left edge and the backward scan from the right
edge are each called exactly once for every row `r` in `[0, n-1]`, the forward scan from
the top edge exactly once for every column `c` in `[1, n-1]`, the backward scan from the
top edge exactly once for every column `c` in `[0, n-2]`, and no other call is made;
exactly one worker has `startRow == 0`, and a worker with another `startRow` makes no
top-edge call. -/
theorem C11_each_start_scanned_once (input : grid) (s : Nat) (t : Int)
    (hn : 1 ≤ input.n) (ht : t = 1 ∨ t = 2 ∨ t = 3) :
    (∀ (d : ThreadData) (out : grid),
      diagonalSumsThread d out = runCalls d.input d.s d.calls out) ∧
    (∀ r : Int, 0 ≤ r → r < input.n →
      (allCalls input s t).count (Family.forwardFromLeftEdge, r) = 1 ∧
      (allCalls input s t).count (Family.backwardFromRightEdge, r) = 1) ∧
    (∀ c : Int, 1 ≤ c → c < input.n →
      (allCalls input s t).count (Family.forwardFromTopEdge, c) = 1) ∧
    (∀ c : Int, 0 ≤ c → c < (input.n : Int) - 1 →
      (allCalls input s t).count (Family.backwardFromTopEdge, c) = 1) ∧
    (∀ (f : Family) (a : Int), (f, a) ∈ allCalls input s t →
      0 ≤ a ∧ f.validStart input.n a.toNat) ∧
    (workItems input s t).countP (fun d => decide (d.startRow = 0)) = 1 ∧
    (∀ d ∈ workItems input s t, d.startRow ≠ 0 → d.topCalls = []) := by
  refine ⟨thread_eq_runCalls, ?_, ?_, ?_, ?_, ?_, ?_⟩
  · intro r h0 h1
    rcases ht with rfl | rfl | rfl
    · simp only [count_allCalls, workItems_one, count_calls, List.map_cons, List.map_nil,
        List.sum_cons, List.sum_nil, true_and]
      constructor <;> split_ifs <;> omega
    · simp only [count_allCalls, workItems_two, count_calls, List.map_cons, List.map_nil,
        List.sum_cons, List.sum_nil, true_and]
      constructor <;> split_ifs <;> omega
    · simp only [count_allCalls, workItems_three, count_calls, List.map_cons, List.map_nil,
        List.sum_cons, List.sum_nil, true_and]
      constructor <;> split_ifs <;> omega
  · intro c h0 h1
    rcases ht with rfl | rfl | rfl
    · simp only [count_allCalls, workItems_one, count_calls, List.map_cons, List.map_nil,
        List.sum_cons, List.sum_nil, true_and]
      split_ifs <;> omega
    · simp only [count_allCalls, workItems_two, count_calls, List.map_cons, List.map_nil,
        List.sum_cons, List.sum_nil, true_and]
      split_ifs <;> omega
    · simp only [count_allCalls, workItems_three, count_calls, List.map_cons, List.map_nil,
        List.sum_cons, List.sum_nil, true_and]
      split_ifs <;> omega
  · intro c h0 h1
    rcases ht with rfl | rfl | rfl
    · simp only [count_allCalls, workItems_one, count_calls, List.map_cons, List.map_nil,
        List.sum_cons, List.sum_nil, true_and]
      split_ifs <;> omega
    · simp only [count_allCalls, workItems_two, count_calls, List.map_cons, List.map_nil,
        List.sum_cons, List.sum_nil, true_and]
      split_ifs <;> omega
    · simp only [count_allCalls, workItems_three, count_calls, List.map_cons, List.map_nil,
        List.sum_cons, List.sum_nil, true_and]
      split_ifs <;> omega
  · intro f a hmem
    have hpos : 0 < (allCalls input s t).count (f, a) := List.count_pos_iff.2 hmem
    rcases ht with rfl | rfl | rfl
    · simp only [count_allCalls, workItems_one, count_calls, List.map_cons, List.map_nil,
        List.sum_cons, List.sum_nil, true_and] at hpos
      cases f <;> simp only [Family.validStart] <;> simp only at hpos <;>
        split_ifs at hpos <;> omega
    · simp only [count_allCalls, workItems_two, count_calls, List.map_cons, List.map_nil,
        List.sum_cons, List.sum_nil, true_and] at hpos
      cases f <;> simp only [Family.validStart] <;> simp only at hpos <;>
        split_ifs at hpos <;> omega
    · simp only [count_allCalls, workItems_three, count_calls, List.map_cons, List.map_nil,
        List.sum_cons, List.sum_nil, true_and] at hpos
      cases f <;> simp only [Family.validStart] <;> simp only at hpos <;>
        split_ifs at hpos <;> omega
  · rcases ht with rfl | rfl | rfl
    · simp [workItems_one]
    · simp only [workItems_two, List.countP_cons, List.countP_nil, decide_eq_true_eq]
      split_ifs <;> omega
    · simp only [workItems_three, List.countP_cons, List.countP_nil, decide_eq_true_eq]
      split_ifs <;> omega
  · intro d _ h0
    simp [ThreadData.topCalls, h0]

/-- C11 at the 2-by-2 grid with three threads. -/
theorem C11_each_start_scanned_once_witness :
    (∀ (d : ThreadData) (out : grid),
      diagonalSumsThread d out = runCalls d.input d.s d.calls out) ∧
    (∀ r : Int, 0 ≤ r → r < smallGrid.n →
      (allCalls smallGrid 4 3).count (Family.forwardFromLeftEdge, r) = 1 ∧
      (allCalls smallGrid 4 3).count (Family.backwardFromRightEdge, r) = 1) ∧
    (∀ c : Int, 1 ≤ c → c < smallGrid.n →
      (allCalls smallGrid 4 3).count (Family.forwardFromTopEdge, c) = 1) ∧
    (∀ c : Int, 0 ≤ c → c < (smallGrid.n : Int) - 1 →
      (allCalls smallGrid 4 3).count (Family.backwardFromTopEdge, c) = 1) ∧
    (∀ (f : Family) (a : Int), (f, a) ∈ allCalls smallGrid 4 3 →
      0 ≤ a ∧ f.validStart smallGrid.n a.toNat) ∧
    (workItems smallGrid 4 3).countP (fun d => decide (d.startRow = 0)) = 1 ∧
    (∀ d ∈ workItems smallGrid 4 3, d.startRow ≠ 0 → d.topCalls = []) :=
  C11_each_start_scanned_once smallGrid 4 3 (by decide) (by decide)

/-! ## Coverage of the diagonals by the four families -/

theorem candidate_cells_injective (n : Nat) (f1 f2 : Family) (a1 a2 len1 len2 : Nat)
    (hv1 : f1.validStart n a1) (hv2 : f2.validStart n a2)
    (h21 : 2 ≤ len1) (hm1 : len1 ≤ f1.maxLen n a1)
    (h22 : 2 ≤ len2) (hm2 : len2 ≤ f2.maxLen n a2)
    (h : ∀ p : Nat × Nat,
      (∃ k < len1, f1.cell n a1 k = p) ↔ (∃ k < len2, f2.cell n a2 k = p)) :
    f1 = f2 ∧ a1 = a2 ∧ len1 = len2 := by
  obtain ⟨k0, hk0, e0⟩ := (h (f1.cell n a1 0)).1 ⟨0, by omega, rfl⟩
  obtain ⟨k1, hk1, e1⟩ := (h (f1.cell n a1 1)).1 ⟨1, by omega, rfl⟩
  obtain ⟨kl, hkl, el⟩ := (h (f1.cell n a1 (len1 - 1))).1 ⟨len1 - 1, by omega, rfl⟩
  obtain ⟨j0, hj0, d0⟩ := (h (f2.cell n a2 0)).2 ⟨0, by omega, rfl⟩
  obtain ⟨j1, hj1, d1⟩ := (h (f2.cell n a2 1)).2 ⟨1, by omega, rfl⟩
  obtain ⟨jl, hjl, dl⟩ := (h (f2.cell n a2 (len2 - 1))).2 ⟨len2 - 1, by omega, rfl⟩
  clear h
  cases f1 <;> cases f2 <;>
    simp only [Family.cell, Family.maxLen, Family.validStart, Prod.mk.injEq] at * <;>
    first
      | (refine ⟨trivial, ?_, ?_⟩ <;> omega)
      | (exfalso; omega)

/-- C12: for every grid side `n`, each maximal diagonal with at least 2 cells is the
full-length candidate (`len = maxLen`) of exactly one family and valid start, and two
candidates (family, valid start, length between 2 and `maxLen`) with the same set of
cells are the same candidate. -/
theorem C12_families_cover_without_duplicates (n : Nat) :
    (∀ u : Run, u.Maximal n →
      ∃! p : Family × Nat, p.1.validStart n p.2 ∧ p.1.maxLen n p.2 = u.len ∧
        ∀ k < u.len, p.1.cell n p.2 k = u.cell k) ∧
    (∀ (f1 f2 : Family) (a1 a2 len1 len2 : Nat),
      f1.validStart n a1 → f2.validStart n a2 →
      2 ≤ len1 → len1 ≤ f1.maxLen n a1 → 2 ≤ len2 → len2 ≤ f2.maxLen n a2 →
      (∀ p : Nat × Nat,
        (∃ k < len1, f1.cell n a1 k = p) ↔ (∃ k < len2, f2.cell n a2 k = p)) →
      f1 = f2 ∧ a1 = a2 ∧ len1 = len2) := by
  refine ⟨?_, candidate_cells_injective n⟩
  rintro ⟨dir, row, col, len⟩ ⟨⟨h2, hrow, hdir⟩, hedge, hend⟩
  have huniq : ∀ p q : Family × Nat,
      (p.1.validStart n p.2 ∧ p.1.maxLen n p.2 = len ∧
        ∀ k < len, p.1.cell n p.2 k = Run.cell ⟨dir, row, col, len⟩ k) →
      (q.1.validStart n q.2 ∧ q.1.maxLen n q.2 = len ∧
        ∀ k < len, q.1.cell n q.2 k = Run.cell ⟨dir, row, col, len⟩ k) → p = q := by
    rintro ⟨f1, a1⟩ ⟨f2, a2⟩ ⟨hv1, hm1, hc1⟩ ⟨hv2, hm2, hc2⟩
    simp only at hv1 hm1 hc1 hv2 hm2 hc2 h2
    have := candidate_cells_injective n f1 f2 a1 a2 len len hv1 hv2 h2 (by omega) h2
      (by omega) (fun p =>
        ⟨fun ⟨k, hk, e⟩ => ⟨k, hk, by rw [hc2 k hk, ← hc1 k hk]; exact e⟩,
         fun ⟨k, hk, e⟩ => ⟨k, hk, by rw [hc1 k hk, ← hc2 k hk]; exact e⟩⟩)
    rw [this.1, this.2.1]
  have hex : ∃ p : Family × Nat, p.1.validStart n p.2 ∧ p.1.maxLen n p.2 = len ∧
      ∀ k < len, p.1.cell n p.2 k = Run.cell ⟨dir, row, col, len⟩ k := by
    cases dir with
    | downRight =>
      simp only [Run.FromEdge] at hedge
      simp only at hdir hrow h2 hend
      by_cases hcol : col = 0
      · refine ⟨(.forwardFromLeftEdge, row), ?_, ?_, ?_⟩
        · simp only [Family.validStart]; omega
        · simp only [Family.maxLen]; omega
        · intro k _
          simp only [Family.cell, Run.cell, hcol, Nat.zero_add]
      · refine ⟨(.forwardFromTopEdge, col), ?_, ?_, ?_⟩
        · simp only [Family.validStart]; omega
        · simp only [Family.maxLen]; omega
        · intro k _
          have hrow0 : row = 0 := by omega
          simp only [Family.cell, Run.cell, hrow0, Nat.zero_add]
    | downLeft =>
      simp only [Run.FromEdge] at hedge
      simp only at hdir hrow h2 hend
      by_cases hcol : col + 1 = n
      · refine ⟨(.backwardFromRightEdge, row), ?_, ?_, ?_⟩
        · simp only [Family.validStart]; omega
        · simp only [Family.maxLen]; omega
        · intro k _
          have hcol' : n - 1 = col := by omega
          simp only [Family.cell, Run.cell, hcol']
      · refine ⟨(.backwardFromTopEdge, col), ?_, ?_, ?_⟩
        · simp only [Family.validStart]; omega
        · simp only [Family.maxLen]; omega
        · intro k _
          have hrow0 : row = 0 := by omega
          simp only [Family.cell, Run.cell, hrow0, Nat.zero_add]
  obtain ⟨p, hp⟩ := hex
  exact ⟨p, hp, fun q hq => huniq q p hq hp⟩

/-- C12 at side 3: the main diagonal is the full-length forward candidate from row 0 of
the left edge and of no other start, and two candidates of equal cells coincide. -/
theorem C12_families_cover_without_duplicates_witness :
    (∃! p : Family × Nat, p.1.validStart 3 p.2 ∧
        p.1.maxLen 3 p.2 = (Run.mk .downRight 0 0 3).len ∧
        ∀ k < (Run.mk .downRight 0 0 3).len,
          p.1.cell 3 p.2 k = (Run.mk .downRight 0 0 3).cell k) ∧
      (Family.forwardFromTopEdge = Family.forwardFromTopEdge ∧ 1 = 1 ∧ 2 = 2) :=
  ⟨(C12_families_cover_without_duplicates 3).1 ⟨.downRight, 0, 0, 3⟩
      ⟨⟨by decide, by decide, by decide⟩, Or.inl rfl, Or.inl rfl⟩,
    (C12_families_cover_without_duplicates 3).2 .forwardFromTopEdge .forwardFromTopEdge
      1 1 2 2 (by decide) (by decide) (by decide) (by decide) (by decide) (by decide)
      (fun _ => Iff.rfl)⟩

/-- C13: for every grid side `n ≥ 0` and every thread count `t` in {1,2,3}, the `i`-th row
range built by `diagonalSums` (counting from 0) contains exactly
`floor(n/t) + (1 if i < n mod t else 0)` rows, the last range `[currentRow, n)`
included. -/
theorem C13_partition_sizes (input : grid) (s : Nat) (t : Int)
    (ht : t = 1 ∨ t = 2 ∨ t = 3) (i : Nat) (d : ThreadData)
    (hd : (workItems input s t)[i]? = some d) :
    d.endRow - d.startRow =
      (input.n : Int) / t + (if (i : Int) < (input.n : Int) % t then 1 else 0) := by
  rcases ht with rfl | rfl | rfl
  · rw [workItems_one] at hd
    rcases i with _ | i
    · simp only [List.getElem?_cons_zero, Option.some.injEq] at hd
      subst hd
      dsimp only
      split_ifs <;> omega
    · simp at hd
  · rw [workItems_two] at hd
    rcases i with _ | _ | i
    · simp only [List.getElem?_cons_zero, Option.some.injEq] at hd
      subst hd
      dsimp only
      split_ifs <;> omega
    · simp only [List.getElem?_cons_succ, List.getElem?_cons_zero, Option.some.injEq] at hd
      subst hd
      dsimp only
      split_ifs <;> omega
    · simp at hd
  · rw [workItems_three] at hd
    rcases i with _ | _ | _ | i
    · simp only [List.getElem?_cons_zero, Option.some.injEq] at hd
      subst hd
      dsimp only
      split_ifs <;> omega
    · simp only [List.getElem?_cons_succ, List.getElem?_cons_zero, Option.some.injEq] at hd
      subst hd
      dsimp only
      split_ifs <;> omega
    · simp only [List.getElem?_cons_succ, List.getElem?_cons_zero, Option.some.injEq] at hd
      subst hd
      dsimp only
      split_ifs <;> omega
    · simp at hd

/-- C13 at the 2-by-2 grid with three threads: the last range `[2,2)` has
`floor(2/3) + 0 = 0` rows. -/
theorem C13_partition_sizes_witness :
    (ThreadData.mk smallGrid 4 2 2).endRow - (ThreadData.mk smallGrid 4 2 2).startRow =
      (smallGrid.n : Int) / 3 + (if ((2 : Nat) : Int) < (smallGrid.n : Int) % 3 then 1 else 0) :=
  C13_partition_sizes smallGrid 4 3 (by decide) 2 ⟨smallGrid, 4, 2, 2⟩ (by decide)

/-! ## Writes of the row families -/

theorem rowCalls_marks (d : ThreadData) (hwf : d.input.WellFormed) (h0 : 0 ≤ d.startRow) :
    Marks d.input.n (runCalls d.input d.s d.rowCalls)
      (fun i j => ∃ a : Nat, d.startRow ≤ a ∧ (a : Int) < d.endRow ∧
        (Family.forwardFromLeftEdge.marks d.input d.s a i j ∨
          Family.backwardFromRightEdge.marks d.input d.s a i j)) := by
  have hrows := marks_forRange d.input.n d.startRow d.endRow h0
    (fun output i => do
      let output ← processForwardDiagonalFromLeftEdge d.input d.s output i
      processBackwardDiagonalFromRightEdge d.input d.s output i)
    (fun a i j => Family.forwardFromLeftEdge.marks d.input d.s a i j ∨
      Family.backwardFromRightEdge.marks d.input d.s a i j)
    (fun a _ _ => marks_seq (forwardLeft_marks d.input d.s hwf a)
      (backwardRight_marks d.input d.s hwf a))
  intro out hout
  obtain ⟨o, e, m⟩ := hrows out hout
  refine ⟨o, ?_, m⟩
  unfold ThreadData.rowCalls
  rw [runCalls_rowFamilies]
  exact e

theorem rowWrites_iff (d : ThreadData) (hwf : d.input.WellFormed) (h0 : 0 ≤ d.startRow)
    (r c : Nat) (hr : r < d.input.n) (hc : c < d.input.n) :
    d.rowWrites r c = true ↔
      ∃ a : Nat, d.startRow ≤ a ∧ (a : Int) < d.endRow ∧
        (Family.forwardFromLeftEdge.marks d.input d.s a r c ∨
          Family.backwardFromRightEdge.marks d.input d.s a r c) := by
  obtain ⟨out, e, _, hm⟩ := rowCalls_marks d hwf h0 _ (shape_zeroGrid d.input.n)
  unfold ThreadData.rowWrites
  rw [e]
  simp only [decide_eq_true_eq]
  constructor
  · intro h
    by_contra hn
    rw [(hm r c hr hc).2 hn, read_zeroGrid _ _ _ hr hc] at h
    exact absurd h (by decide)
  · exact (hm r c hr hc).1

theorem rowFamily_marks_row {g : grid} {s a r c : Nat}
    (h : Family.forwardFromLeftEdge.marks g s a r c ∨
      Family.backwardFromRightEdge.marks g s a r c) : a ≤ r := by
  rcases h with ⟨_, _, _, _, k, _, hc⟩ | ⟨_, _, _, _, k, _, hc⟩ <;>
    simp only [Family.cell, Prod.mk.injEq] at hc <;> omega

theorem workItems_ranges_disjoint (input : grid) (s : Nat) (t : Int)
    (ht : t = 1 ∨ t = 2 ∨ t = 3) (i j : Nat) (di dj : ThreadData)
    (hi : (workItems input s t)[i]? = some di) (hj : (workItems input s t)[j]? = some dj)
    (hij : i ≠ j) (a : Int) :
    ¬ (di.startRow ≤ a ∧ a < di.endRow ∧ dj.startRow ≤ a ∧ a < dj.endRow) := by
  rcases ht with rfl | rfl | rfl
  · rw [workItems_one] at hi hj
    rcases i with _ | i <;> rcases j with _ | j <;> simp at hi hj hij
  · rw [workItems_two] at hi hj
    rcases i with _ | _ | i <;> rcases j with _ | _ | j <;>
      simp only [List.getElem?_cons_succ, List.getElem?_cons_zero, Option.some.injEq,
        List.getElem?_nil, reduceCtorEq] at hi hj <;>
      first
        | exact absurd rfl hij
        | (subst hi hj; dsimp only; split_ifs <;> omega)
  · rw [workItems_three] at hi hj
    rcases i with _ | _ | _ | i <;> rcases j with _ | _ | _ | j <;>
      simp only [List.getElem?_cons_succ, List.getElem?_cons_zero, Option.some.injEq,
        List.getElem?_nil, reduceCtorEq] at hi hj <;>
      first
        | exact absurd rfl hij
        | (subst hi hj; dsimp only; split_ifs <;> omega)

/-- C14 (as stated, refuted): on the grid of ones with target 2 and three threads, the row
families of the worker of `[0,1)` write `(1,1)` (second cell of the candidates from row
0) and the row families of the worker of `[1,2)` write `(1,0)` (first cell of the forward
candidate from row 1): both touch row 1. -/
theorem C14_row_family_writes_share_a_row :
    (threadData onesGrid 2 3)[0]? = some ⟨onesGrid, 2, 0, 1⟩ ∧
      (threadData onesGrid 2 3)[1]? = some ⟨onesGrid, 2, 1, 2⟩ ∧
      ThreadData.rowWrites ⟨onesGrid, 2, 0, 1⟩ 1 1 = true ∧
      ThreadData.rowWrites ⟨onesGrid, 2, 1, 2⟩ 1 0 = true := by
  decide

/-- C14 (amended): for every well-formed square grid, every target and every thread count
in {2,3}, every cell written by the two row families of a worker lies on a matching
candidate that starts in a row of the range of that worker, hence in a row at or below
its `startRow`, and no row is a start row for two different workers. -/
theorem C14_row_family_writes_start_in_own_rows (input : grid) (s : Nat) (t : Int)
    (hwf : input.WellFormed) (ht : t = 2 ∨ t = 3) (i j : Nat) (di dj : ThreadData)
    (hi : (threadData input s t)[i]? = some di) (hj : (threadData input s t)[j]? = some dj)
    (hij : i ≠ j) :
    (∀ r c : Nat, r < input.n → c < input.n → di.rowWrites r c = true →
      ∃ a : Nat, di.startRow ≤ a ∧ (a : Int) < di.endRow ∧ a ≤ r ∧
        (Family.forwardFromLeftEdge.marks input s a r c ∨
          Family.backwardFromRightEdge.marks input s a r c)) ∧
    ∀ a : Int, ¬ (di.startRow ≤ a ∧ a < di.endRow ∧ dj.startRow ≤ a ∧ a < dj.endRow) := by
  have ht' : t = 1 ∨ t = 2 ∨ t = 3 := Or.inr ht
  rw [← workItems_of_ne_one input s t ht] at hi hj
  refine ⟨?_, workItems_ranges_disjoint input s t ht' i j di dj hi hj hij⟩
  intro r c hr hc hw
  obtain ⟨h1, h2, h3⟩ := workItems_itemsFor input s t ht' di (List.getElem?_mem hi)
  obtain ⟨a, ha1, ha2, hm⟩ :=
    (rowWrites_iff di (h1 ▸ hwf) h3 r c (h1 ▸ hr) (h1 ▸ hc)).1 hw
  rw [h1, h2] at hm
  exact ⟨a, ha1, ha2, rowFamily_marks_row hm, hm⟩

/-- C14 (amended) at the grid of ones with three threads, for the workers of `[1,2)` and
`[0,1)`. -/
theorem C14_row_family_writes_start_in_own_rows_witness :
    (∀ r c : Nat, r < onesGrid.n → c < onesGrid.n →
      ThreadData.rowWrites ⟨onesGrid, 2, 1, 2⟩ r c = true →
      ∃ a : Nat, (ThreadData.mk onesGrid 2 1 2).startRow ≤ a ∧
        (a : Int) < (ThreadData.mk onesGrid 2 1 2).endRow ∧ a ≤ r ∧
        (Family.forwardFromLeftEdge.marks onesGrid 2 a r c ∨
          Family.backwardFromRightEdge.marks onesGrid 2 a r c)) ∧
    ∀ a : Int, ¬ ((ThreadData.mk onesGrid 2 1 2).startRow ≤ a ∧
      a < (ThreadData.mk onesGrid 2 1 2).endRow ∧
      (ThreadData.mk onesGrid 2 0 1).startRow ≤ a ∧ a < (ThreadData.mk onesGrid 2 0 1).endRow) :=
  C14_row_family_writes_start_in_own_rows onesGrid 2 3 (by decide) (by decide) 1 0
    ⟨onesGrid, 2, 1, 2⟩ ⟨onesGrid, 2, 0, 1⟩ (by decide) (by decide) (by decide)

/-! ## Index safety -/

theorem safe_foldlM {α : Type} (n : Nat) (xs : List α) (f : grid → α → Option grid)
    (hstep : ∀ x ∈ xs, Safe n (fun out => f out x)) :
    Safe n (fun out => xs.foldlM f out) := by
  induction xs with
  | nil => exact fun out hout => ⟨out, rfl, hout⟩
  | cons x xs ih =>
    intro out hout
    obtain ⟨o1, e1, s1⟩ := hstep x (List.mem_cons_self _ _) out hout
    obtain ⟨o2, e2, s2⟩ := ih (fun y hy => hstep y (List.mem_cons_of_mem _ hy)) o1 s1
    refine ⟨o2, ?_, s2⟩
    show List.foldlM f out (x :: xs) = some o2
    rw [List.foldlM_cons]
    simp only at e1 e2
    rw [e1]
    exact e2

theorem read_isSome_iff (n : Nat) (g : grid) (hg : Shape n g) (i j : Int) :
    (g.read i j).isSome ↔ (0 ≤ i ∧ i < n ∧ 0 ≤ j ∧ j < n) := by
  obtain ⟨_, h2, h3⟩ := hg
  unfold grid.read
  by_cases h0 : 0 ≤ i ∧ 0 ≤ j
  · rw [if_pos h0]
    by_cases hi : i.toNat < g.p.length
    · have hrow := h3 _ (List.getElem_mem hi : g.p[i.toNat] ∈ g.p)
      rw [List.getElem?_eq_getElem hi]
      by_cases hj : j.toNat < (g.p[i.toNat]).length
      · simp only [List.getElem?_eq_getElem hj, Option.isSome_some, true_iff]
        omega
      · simp only [List.getElem?_eq_none (Nat.le_of_not_lt hj), Option.isSome_none,
          Bool.false_eq_true, false_iff]
        omega
    · simp only [List.getElem?_eq_none (Nat.le_of_not_lt hi), Option.isSome_none,
        Bool.false_eq_true, false_iff]
      omega
  · rw [if_neg h0]
    simp only [Option.isSome_none, Bool.false_eq_true, false_iff]
    omega

theorem write_isSome_iff (n : Nat) (g : grid) (hg : Shape n g) (i j : Int) (v : Nat) :
    (g.write i j v).isSome ↔ (0 ≤ i ∧ i < n ∧ 0 ≤ j ∧ j < n) := by
  obtain ⟨_, h2, h3⟩ := hg
  unfold grid.write
  by_cases h0 : 0 ≤ i ∧ 0 ≤ j
  · rw [if_pos h0]
    by_cases hi : i.toNat < g.p.length
    · have hrow := h3 _ (List.getElem_mem hi : g.p[i.toNat] ∈ g.p)
      rw [List.getElem?_eq_getElem hi]
      by_cases hj : j.toNat < (g.p[i.toNat]).length
      · simp only [hj, if_true, Option.isSome_some, true_iff]
        omega
      · simp only [hj, if_false, Option.isSome_none, Bool.false_eq_true, false_iff]
        omega
    · simp only [List.getElem?_eq_none (Nat.le_of_not_lt hi), Option.isSome_none,
        Bool.false_eq_true, false_iff]
      omega
  · rw [if_neg h0]
    simp only [Option.isSome_none, Bool.false_eq_true, false_iff]
    omega

theorem write_safe (n : Nat) (i j : Int) (v : Nat)
    (h : 0 ≤ i ∧ i < n ∧ 0 ≤ j ∧ j < n) : Safe n (fun out => out.write i j v) := by
  intro out hout
  obtain ⟨a, rfl⟩ : ∃ a : Nat, i = a := ⟨i.toNat, by omega⟩
  obtain ⟨b, rfl⟩ : ∃ b : Nat, j = b := ⟨j.toNat, by omega⟩
  obtain ⟨g', e, hs, _⟩ := write_spec n out a b v hout (by omega) (by omega)
  exact ⟨g', e, hs⟩

theorem sumLoop_some (n : Nat) (g : grid) (hg : Shape n g) (row col : Int → Int)
    (ks : List Int)
    (hin : ∀ k ∈ ks, 0 ≤ row k ∧ row k < n ∧ 0 ≤ col k ∧ col k < n) (acc : Nat) :
    ∃ v, ks.foldlM (fun sum k => do
        let v ← g.read (row k) (col k)
        pure ((sum + v) % ULONG_MODULUS)) acc = some v := by
  induction ks generalizing acc with
  | nil => exact ⟨acc, rfl⟩
  | cons k ks ih =>
    have hr := (read_isSome_iff n g hg (row k) (col k)).2 (hin k (List.mem_cons_self _ _))
    obtain ⟨v, hv⟩ := Option.isSome_iff_exists.1 hr
    obtain ⟨w, hw⟩ := ih (fun y hy => hin y (List.mem_cons_of_mem _ hy))
      ((acc + v) % ULONG_MODULUS)
    refine ⟨w, ?_⟩
    rw [List.foldlM_cons, hv]
    exact hw

theorem scanDiagonal_safe (input : grid) (s : Nat) (hg : Shape input.n input)
    (row col : Int → Int) (hi : Int)
    (hin : ∀ k : Int, 0 ≤ k → k < hi →
      0 ≤ row k ∧ row k < input.n ∧ 0 ≤ col k ∧ col k < input.n) :
    Safe input.n (scanDiagonal input s row col hi) := by
  refine safe_foldlM input.n (forRange 2 (hi + 1)) _ ?_
  intro len hlen
  rw [mem_forRange] at hlen
  have hks : ∀ k ∈ forRange 0 len,
      0 ≤ row k ∧ row k < input.n ∧ 0 ≤ col k ∧ col k < input.n := by
    intro k hk
    rw [mem_forRange] at hk
    exact hin k hk.1 (by omega)
  obtain ⟨v, hv⟩ := sumLoop_some input.n input hg row col (forRange 0 len) hks 0
  intro out hout
  show ∃ out', (do
    let sum ← (forRange 0 len).foldlM (fun sum k => do
      let v ← input.read (row k) (col k)
      pure ((sum + v) % ULONG_MODULUS)) 0
    if sum = s then
      (forRange 0 len).foldlM (fun output k => output.write (row k) (col k) 1) out
    else pure out) = some out' ∧ _
  rw [hv]
  simp only [Option.some_bind, Option.bind_eq_bind]
  by_cases heq : v = s
  · simp only [heq, if_true]
    exact safe_foldlM input.n (forRange 0 len) _
      (fun k hk => write_safe input.n (row k) (col k) 1 (hks k hk)) out hout
  · simp only [heq, if_false]
    exact ⟨out, rfl, hout⟩

theorem run_safe (input : grid) (s : Nat) (hg : Shape input.n input) (f : Family) (a : Nat)
    (hv : f = Family.backwardFromTopEdge → a < input.n) :
    Safe input.n (fun out => f.run input s out a) := by
  cases f with
  | forwardFromLeftEdge =>
    exact scanDiagonal_safe input s hg (fun k => (a : Int) + k) (fun k => k)
      ((input.n : Int) - a) (fun k h0 h1 => by dsimp only; refine ⟨?_, ?_, ?_, ?_⟩ <;> omega)
  | backwardFromRightEdge =>
    exact scanDiagonal_safe input s hg (fun k => (a : Int) + k)
      (fun k => (input.n : Int) - 1 - k) ((input.n : Int) - a)
      (fun k h0 h1 => by dsimp only; refine ⟨?_, ?_, ?_, ?_⟩ <;> omega)
  | forwardFromTopEdge =>
    exact scanDiagonal_safe input s hg (fun k => k) (fun k => (a : Int) + k)
      ((input.n : Int) - a) (fun k h0 h1 => by dsimp only; refine ⟨?_, ?_, ?_, ?_⟩ <;> omega)
  | backwardFromTopEdge =>
    have hv' := hv rfl
    exact scanDiagonal_safe input s hg (fun k => k) (fun k => (a : Int) - k)
      ((a : Int) + 1) (fun k h0 h1 => by dsimp only; refine ⟨?_, ?_, ?_, ?_⟩ <;> omega)

theorem calls_mem (d : ThreadData) (h0 : 0 ≤ d.startRow) (f : Family) (a : Int)
    (hmem : (f, a) ∈ d.calls) :
    0 ≤ a ∧ (f = Family.backwardFromTopEdge → a < d.input.n) := by
  have hpos : 0 < d.calls.count (f, a) := List.count_pos_iff.2 hmem
  rw [count_calls] at hpos
  cases f <;> simp only [reduceCtorEq, false_implies, and_true, true_implies] <;>
    simp only at hpos <;> split_ifs at hpos <;> omega

theorem thread_safe (d : ThreadData) (hg : Shape d.input.n d.input) (h0 : 0 ≤ d.startRow) :
    Safe d.input.n (diagonalSumsThread d) := by
  intro out hout
  rw [thread_eq_runCalls]
  refine safe_foldlM d.input.n d.calls (fun output c => c.1.run d.input d.s output c.2) ?_
    out hout
  rintro ⟨f, a⟩ hmem
  obtain ⟨ha, hb⟩ := calls_mem d h0 f a hmem
  obtain ⟨b, rfl⟩ : ∃ b : Nat, a = b := ⟨a.toNat, by omega⟩
  exact run_safe d.input d.s hg f b (fun hf => by have := hb hf; omega)

theorem runWorkers_safe (input : grid) (s : Nat) (hg : Shape input.n input)
    (items : List ThreadData) (hitems : ItemsFor input s items) :
    Safe input.n (runWorkers items) := by
  refine safe_foldlM input.n items (fun output data => diagonalSumsThread data output) ?_
  intro d hd
  obtain ⟨h1, _, h3⟩ := hitems d hd
  have := thread_safe d (h1 ▸ hg) h3
  rw [h1] at this
  exact this

/-- C15: for every square grid (`n ≥ 0` rows of `n` cells), every target and every thread
count in {1,2,3}, `diagonalSums` returns a grid: no read of the input and no write of the
output, which both fail exactly when a row or column index is outside `[0, n)`, is out of
bounds, and the divisor `t` of the partition arithmetic is not zero. The same holds for a
single call of each of the four procedures from a valid start. -/
theorem C15_index_safety (input : grid) (s : Nat) (t : Int)
    (hg : Shape input.n input) (ht : t = 1 ∨ t = 2 ∨ t = 3) :
    (∃ out, diagonalSums input s t = some out ∧ Shape input.n out) ∧ t ≠ 0 ∧
    (∀ g : grid, Shape input.n g → ∀ i j : Int,
      ((g.read i j).isSome ↔ (0 ≤ i ∧ i < input.n ∧ 0 ≤ j ∧ j < input.n))) ∧
    (∀ g : grid, Shape input.n g → ∀ (i j : Int) (v : Nat),
      ((g.write i j v).isSome ↔ (0 ≤ i ∧ i < input.n ∧ 0 ≤ j ∧ j < input.n))) ∧
    (∀ (f : Family) (a : Nat), f.validStart input.n a → ∀ out, Shape input.n out →
      ∃ out', f.run input s out a = some out' ∧ Shape input.n out') := by
  refine ⟨?_, by omega, fun g hs i j => read_isSome_iff input.n g hs i j,
    fun g hs i j v => write_isSome_iff input.n g hs i j v, ?_⟩
  · rw [diagonalSums_eq_run input s t ht]
    exact runWorkers_safe input s hg _ (workItems_itemsFor input s t ht) _
      (shape_zeroGrid input.n)
  · intro f a hv out hout
    refine run_safe input s hg f a (fun hf => ?_) out hout
    subst hf
    simp only [Family.validStart] at hv
    omega

/-- C15 at the 2-by-2 grid with three threads. -/
theorem C15_index_safety_witness :
    (∃ out, diagonalSums smallGrid 4 3 = some out ∧ Shape smallGrid.n out) ∧
    (3 : Int) ≠ 0 ∧
    (∀ g : grid, Shape smallGrid.n g → ∀ i j : Int,
      ((g.read i j).isSome ↔ (0 ≤ i ∧ i < smallGrid.n ∧ 0 ≤ j ∧ j < smallGrid.n))) ∧
    (∀ g : grid, Shape smallGrid.n g → ∀ (i j : Int) (v : Nat),
      ((g.write i j v).isSome ↔ (0 ≤ i ∧ i < smallGrid.n ∧ 0 ≤ j ∧ j < smallGrid.n))) ∧
    (∀ (f : Family) (a : Nat), f.validStart smallGrid.n a →
      ∀ out, Shape smallGrid.n out →
        ∃ out', f.run smallGrid 4 out a = some out' ∧ Shape smallGrid.n out') :=
  C15_index_safety smallGrid 4 3 (by decide) (by decide)

/-! ## Sums -/

theorem run_eq_loops (f : Family) (input : grid) (s : Nat) (output : grid) (start : Int) :
    f.run input s output start =
      (forRange 2 (f.hi input start + 1)).foldlM (fun output len => do
        let sum ← f.sumLoop input start len
        if sum = s then f.markLoop input output start len else pure output) output := by
  cases f <;> rfl

theorem val_le_nine (g : grid) (hcells : ∀ row ∈ g.p, ∀ v ∈ row, v ≤ 9) (r c : Nat) :
    g.val r c ≤ 9 := by
  unfold grid.val
  rw [List.getD_eq_getElem?_getD, List.getD_eq_getElem?_getD]
  cases hr : g.p[r]? with
  | none => simp
  | some row =>
    cases hc : row[c]? with
    | none => simp [hc]
    | some v =>
      simp only [Option.getD_some, hc]
      exact hcells row (List.getElem?_mem hr) v (List.getElem?_mem hc)

theorem diagSum_le (g : grid) (hcells : ∀ row ∈ g.p, ∀ v ∈ row, v ≤ 9)
    (cell : Nat → Nat × Nat) (len : Nat) : diagSum g cell len ≤ 9 * len := by
  unfold diagSum
  induction len with
  | zero => simp
  | succ m ih =>
    rw [List.range_succ, List.map_append, List.sum_append]
    have := val_le_nine g hcells (cell m).1 (cell m).2
    simp only [List.map_cons, List.map_nil, List.sum_cons, List.sum_nil]
    omega

theorem sumLoop_exact (input : grid) (hwf : input.WellFormed) (f : Family) (a len : Nat)
    (hv : f.validStart input.n a) (hmax : len ≤ f.maxLen input.n a) :
    f.sumLoop input a len = some (diagSum input (f.cell input.n a) len) := by
  have hpos : 0 < ULONG_MODULUS := by unfold ULONG_MODULUS; norm_num
  have key : ∀ (row col : Int → Int),
      (∀ k < len, row k = ((f.cell input.n a k).1 : Int) ∧
        col k = ((f.cell input.n a k).2 : Int) ∧
        (f.cell input.n a k).1 < input.n ∧ (f.cell input.n a k).2 < input.n) →
      (forRange 0 (len : Int)).foldlM (fun sum k => do
        let v ← input.read (row k) (col k)
        pure ((sum + v) % ULONG_MODULUS)) 0 =
        some (diagSum input (f.cell input.n a) len) := by
    intro row col hcell
    have hsum := sumLoop_spec input hwf row col (f.cell input.n a) (List.range len)
      (fun k hk => hcell k (List.mem_range.1 hk)) 0 hpos
    have hlt : diagSum input (f.cell input.n a) len < ULONG_MODULUS := by
      have h1 := hsum.2
      have h2 := hwf.1
      have h3 : len ≤ input.n := by
        cases f <;> simp only [Family.maxLen, Family.validStart] at hmax hv <;> omega
      simp only [List.length_range] at h1
      unfold diagSum ULONG_MODULUS
      omega
    rw [forRange_zero_cast, hsum.1, Nat.zero_add]
    exact congrArg some (Nat.mod_eq_of_lt hlt)
  cases f with
  | forwardFromLeftEdge =>
    refine key (fun k => (a : Int) + k) (fun k => k) (fun k hk => ?_)
    simp only [Family.maxLen] at hmax
    simp only [Family.cell]
    refine ⟨by omega, trivial, by omega, by omega⟩
  | backwardFromRightEdge =>
    refine key (fun k => (a : Int) + k) (fun k => (input.n : Int) - 1 - k) (fun k hk => ?_)
    simp only [Family.maxLen] at hmax
    simp only [Family.cell]
    refine ⟨by omega, by omega, by omega, by omega⟩
  | forwardFromTopEdge =>
    refine key (fun k => k) (fun k => (a : Int) + k) (fun k hk => ?_)
    simp only [Family.maxLen] at hmax
    simp only [Family.cell]
    refine ⟨trivial, by omega, by omega, by omega⟩
  | backwardFromTopEdge =>
    refine key (fun k => k) (fun k => (a : Int) - k) (fun k hk => ?_)
    simp only [Family.maxLen] at hmax
    simp only [Family.validStart] at hv
    simp only [Family.cell]
    refine ⟨trivial, by omega, by omega, by omega⟩

/-- C16: for every square grid of side `n ≤ 2^31 - 1` with cells in `[0,9]`, every sum the
four procedures accumulate for a candidate (family, valid start, `2 ≤ len ≤ maxLen`), in
arithmetic modulo `2 ^ 64`, is the exact sum of the `len` cells, which is at most `9 * n`,
below `2 ^ 64`; every procedure computes the sum of each candidate length by its summing
loop, which starts again from 0. -/
theorem C16_sums_do_not_wrap (input : grid) (hg : Shape input.n input)
    (hn : input.n ≤ 2 ^ 31 - 1) (hcells : ∀ row ∈ input.p, ∀ v ∈ row, v ≤ 9) :
    (∀ (f : Family) (a len : Nat), f.validStart input.n a → 2 ≤ len →
      len ≤ f.maxLen input.n a →
      f.sumLoop input a len = some (diagSum input (f.cell input.n a) len) ∧
      diagSum input (f.cell input.n a) len ≤ 9 * input.n ∧
      9 * input.n < ULONG_MODULUS) ∧
    (∀ (f : Family) (s : Nat) (output : grid) (start : Int),
      f.run input s output start =
        (forRange 2 (f.hi input start + 1)).foldlM (fun output len => do
          let sum ← f.sumLoop input start len
          if sum = s then f.markLoop input output start len else pure output) output) := by
  have hwf : input.WellFormed :=
    ⟨by omega, hg.2.1, fun row hrow =>
      ⟨hg.2.2 row hrow, fun v hv => by have := hcells row hrow v hv; omega⟩⟩
  refine ⟨fun f a len hv _ hmax => ⟨sumLoop_exact input hwf f a len hv hmax, ?_, ?_⟩,
    fun f s output start => run_eq_loops f input s output start⟩
  · have h1 := diagSum_le input hcells (f.cell input.n a) len
    have h3 : len ≤ input.n := by
      cases f <;> simp only [Family.maxLen, Family.validStart] at hmax hv <;> omega
    omega
  · unfold ULONG_MODULUS
    omega

/-- C16 at the grid of ones. -/
theorem C16_sums_do_not_wrap_witness :
    (∀ (f : Family) (a len : Nat), f.validStart onesGrid.n a → 2 ≤ len →
      len ≤ f.maxLen onesGrid.n a →
      f.sumLoop onesGrid a len = some (diagSum onesGrid (f.cell onesGrid.n a) len) ∧
      diagSum onesGrid (f.cell onesGrid.n a) len ≤ 9 * onesGrid.n ∧
      9 * onesGrid.n < ULONG_MODULUS) ∧
    (∀ (f : Family) (s : Nat) (output : grid) (start : Int),
      f.run onesGrid s output start =
        (forRange 2 (f.hi onesGrid start + 1)).foldlM (fun output len => do
          let sum ← f.sumLoop onesGrid start len
          if sum = s then f.markLoop onesGrid output start len else pure output) output) :=
  C16_sums_do_not_wrap onesGrid (by decide) (by decide) (by decide)

/-! ## Mirror symmetry -/

theorem mirror_mirror (g : grid) : mirror (mirror g) = g := by
  obtain ⟨n, p⟩ := g
  simp [mirror, List.map_map, Function.comp_def]

theorem mirror_shape (n : Nat) (g : grid) (hg : Shape n g) : Shape n (mirror g) := by
  obtain ⟨h1, h2, h3⟩ := hg
  refine ⟨h1, by simpa [mirror] using h2, ?_⟩
  intro row hrow
  simp only [mirror, List.mem_map] at hrow
  obtain ⟨row', hr', rfl⟩ := hrow
  rw [List.length_reverse]
  exact h3 _ hr'

theorem mirror_wellFormed (g : grid) (hwf : g.WellFormed) : (mirror g).WellFormed := by
  obtain ⟨h1, h2, h3⟩ := hwf
  refine ⟨h1, by simpa [mirror] using h2, ?_⟩
  intro row hrow
  simp only [mirror, List.mem_map] at hrow
  obtain ⟨row', hr', rfl⟩ := hrow
  refine ⟨by rw [List.length_reverse]; exact (h3 _ hr').1, fun v hv => ?_⟩
  exact (h3 _ hr').2 v (List.mem_reverse.1 hv)

theorem read_mirror (n : Nat) (g : grid) (hg : Shape n g) (r c : Nat) (hr : r < n)
    (hc : c < n) : (mirror g).read r c = g.read r ((n - 1 - c : Nat) : Int) := by
  obtain ⟨_, h2, h3⟩ := hg
  have hlt : r < g.p.length := by omega
  have hrow := h3 _ (List.getElem_mem hlt : g.p[r] ∈ g.p)
  simp only [read_cast, mirror, List.getElem?_map, List.getElem?_eq_getElem hlt,
    Option.map_some']
  rw [List.getElem?_reverse (by omega), hrow]

theorem val_mirror (n : Nat) (g : grid) (hg : Shape n g) (r c : Nat) (hr : r < n)
    (hc : c < n) : (mirror g).val r c = g.val r (n - 1 - c) := by
  obtain ⟨_, h2, h3⟩ := hg
  have hlt : r < g.p.length := by omega
  have hrow := h3 _ (List.getElem_mem hlt : g.p[r] ∈ g.p)
  simp only [grid.val, mirror, List.getD_eq_getElem?_getD, List.getElem?_map,
    List.getElem?_eq_getElem hlt, Option.map_some', Option.getD_some]
  rw [List.getElem?_reverse (by omega), hrow]

theorem marks_mirror (g : grid) (hg : Shape g.n g) (s : Nat) (f1 f2 : Family) (a1 a2 : Nat)
    (hmax : f1.maxLen g.n a1 = f2.maxLen g.n a2)
    (hcells : ∀ k < f1.maxLen g.n a1,
      (f1.cell g.n a1 k).1 < g.n ∧ (f1.cell g.n a1 k).2 < g.n ∧
      f2.cell g.n a2 k = ((f1.cell g.n a1 k).1, g.n - 1 - (f1.cell g.n a1 k).2))
    (r c : Nat) (hc : c < g.n) :
    f1.marks (mirror g) s a1 r c ↔ f2.marks g s a2 r (g.n - 1 - c) := by
  have hn : (mirror g).n = g.n := rfl
  have hsum : ∀ len ≤ f1.maxLen g.n a1,
      diagSum (mirror g) (f1.cell g.n a1) len = diagSum g (f2.cell g.n a2) len := by
    intro len hlen
    unfold diagSum
    congr 1
    apply List.map_congr_left
    intro k hk
    obtain ⟨h1, h2, h3⟩ := hcells k (by have := List.mem_range.1 hk; omega)
    rw [val_mirror g.n g hg _ _ h1 h2, h3]
  unfold Family.marks
  rw [hn]
  constructor
  · rintro ⟨len, h2, hm, hs, k, hk, hcell⟩
    refine ⟨len, h2, by omega, by rw [← hsum len hm]; exact hs, k, hk, ?_⟩
    obtain ⟨_, _, h3⟩ := hcells k (by omega)
    rw [h3, hcell]
  · rintro ⟨len, h2, hm, hs, k, hk, hcell⟩
    refine ⟨len, h2, by omega, by rw [hsum len (by omega)]; exact hs, k, hk, ?_⟩
    obtain ⟨h1, h2', h3⟩ := hcells k (by omega)
    rw [h3] at hcell
    simp only [Prod.mk.injEq] at hcell
    apply Prod.ext
    · exact hcell.1
    · show (f1.cell g.n a1 k).2 = c
      omega

theorem candidate_mirror (g : grid) (hg : Shape g.n g) (s r c : Nat) (hc : c < g.n) :
    CandidateMarks (mirror g) s r c → CandidateMarks g s r (g.n - 1 - c) := by
  rintro ⟨f, a, hv, hm⟩
  have hn : (mirror g).n = g.n := rfl
  rw [hn] at hv
  cases f with
  | forwardFromLeftEdge =>
    simp only [Family.validStart] at hv
    refine ⟨.backwardFromRightEdge, a, hv,
      (marks_mirror g hg s .forwardFromLeftEdge .backwardFromRightEdge a a rfl ?_ r c hc).1 hm⟩
    intro k hk
    simp only [Family.maxLen] at hk
    simp only [Family.cell]
    refine ⟨by omega, by omega, trivial⟩
  | backwardFromRightEdge =>
    simp only [Family.validStart] at hv
    refine ⟨.forwardFromLeftEdge, a, hv,
      (marks_mirror g hg s .backwardFromRightEdge .forwardFromLeftEdge a a rfl ?_ r c hc).1 hm⟩
    intro k hk
    simp only [Family.maxLen] at hk
    simp only [Family.cell, Prod.mk.injEq, true_and]
    refine ⟨by omega, by omega, by omega⟩
  | forwardFromTopEdge =>
    simp only [Family.validStart] at hv
    refine ⟨.backwardFromTopEdge, g.n - 1 - a, by simp only [Family.validStart]; omega,
      (marks_mirror g hg s .forwardFromTopEdge .backwardFromTopEdge a (g.n - 1 - a)
        (by simp only [Family.maxLen]; omega) ?_ r c hc).1 hm⟩
    intro k hk
    simp only [Family.maxLen] at hk
    simp only [Family.cell, Prod.mk.injEq, true_and]
    refine ⟨by omega, by omega, by omega⟩
  | backwardFromTopEdge =>
    simp only [Family.validStart] at hv
    refine ⟨.forwardFromTopEdge, g.n - 1 - a, by simp only [Family.validStart]; omega,
      (marks_mirror g hg s .backwardFromTopEdge .forwardFromTopEdge a (g.n - 1 - a)
        (by simp only [Family.maxLen]; omega) ?_ r c hc).1 hm⟩
    intro k hk
    simp only [Family.maxLen] at hk
    simp only [Family.cell, Prod.mk.injEq, true_and]
    refine ⟨by omega, by omega, by omega⟩

theorem candidate_mirror_iff (g : grid) (hg : Shape g.n g) (s r c : Nat) (hc : c < g.n) :
    CandidateMarks (mirror g) s r c ↔ CandidateMarks g s r (g.n - 1 - c) := by
  refine ⟨candidate_mirror g hg s r c hc, fun h => ?_⟩
  have hm := candidate_mirror (mirror g) (mirror_shape g.n g hg) s r (g.n - 1 - c)
    (by show g.n - 1 - c < g.n; omega)
  rw [mirror_mirror] at hm
  have h' := hm h
  have e : (mirror g).n - 1 - (g.n - 1 - c) = c := by show g.n - 1 - (g.n - 1 - c) = c; omega
  rw [e] at h'
  exact h'

/-- C17: for every well-formed square grid `G`, every target `s` and every thread count in
{1,2,3}, `diagonalSums` returns a grid on `G` and on its mirror image, and the result on
the mirror image is the mirror image of the result on `G`. Under the mirror the matching
candidates of the forward family from the left edge become those of the backward family
from the right edge at the same row, and those of the forward family from the top edge at
column `c` become those of the backward family from the top edge at column `n - 1 - c`. -/
theorem C17_mirror_symmetry (input : grid) (s : Nat) (t : Int)
    (hwf : input.WellFormed) (ht : t = 1 ∨ t = 2 ∨ t = 3) :
    (∃ out, diagonalSums input s t = some out ∧
      diagonalSums (mirror input) s t = some (mirror out)) ∧
    (∀ a r c : Nat, c < input.n →
      (Family.forwardFromLeftEdge.marks (mirror input) s a r c ↔
        Family.backwardFromRightEdge.marks input s a r (input.n - 1 - c))) ∧
    (∀ a r c : Nat, 1 ≤ a → a < input.n → c < input.n →
      (Family.forwardFromTopEdge.marks (mirror input) s a r c ↔
        Family.backwardFromTopEdge.marks input s (input.n - 1 - a) r (input.n - 1 - c))) := by
  have hg : Shape input.n input := ⟨rfl, hwf.2.1, fun row hrow => (hwf.2.2 row hrow).1⟩
  refine ⟨?_, ?_, ?_⟩
  · obtain ⟨o, e, hs, h⟩ := diagonalSums_spec input s t hwf ht
    obtain ⟨o', e', hs', h'⟩ :=
      diagonalSums_spec (mirror input) s t (mirror_wellFormed input hwf) ht
    have hn : (mirror input).n = input.n := rfl
    rw [hn] at hs' h'
    refine ⟨o, e, ?_⟩
    rw [e']
    refine congrArg some (grid_ext input.n o' (mirror o) hs' (mirror_shape input.n o hs)
      (fun i j hi hj => ?_))
    rw [read_mirror input.n o hs i j hi hj]
    have hj' : input.n - 1 - j < input.n := by omega
    have hiff := candidate_mirror_iff input hg s i j hj
    rcases h' i j hi hj with ⟨x1, x2⟩ | ⟨x1, x2⟩ <;>
      rcases h i (input.n - 1 - j) hi hj' with ⟨y1, y2⟩ | ⟨y1, y2⟩
    · rw [x1, y1]
    · exact absurd (hiff.1 x2) y2
    · exact absurd (hiff.2 y2) x2
    · rw [x1, y1]
  · intro a r c hc
    refine marks_mirror input hg s .forwardFromLeftEdge .backwardFromRightEdge a a rfl ?_ r c hc
    intro k hk
    simp only [Family.maxLen] at hk
    simp only [Family.cell]
    refine ⟨by omega, by omega, trivial⟩
  · intro a r c h1 h2 hc
    refine marks_mirror input hg s .forwardFromTopEdge .backwardFromTopEdge a
      (input.n - 1 - a) (by simp only [Family.maxLen]; omega) ?_ r c hc
    intro k hk
    simp only [Family.maxLen] at hk
    simp only [Family.cell, Prod.mk.injEq, true_and]
    refine ⟨by omega, by omega, by omega⟩

/-- C17 at the 2-by-2 grid with target 5 and two threads. -/
theorem C17_mirror_symmetry_witness :
    (∃ out, diagonalSums smallGrid 5 2 = some out ∧
      diagonalSums (mirror smallGrid) 5 2 = some (mirror out)) ∧
    (∀ a r c : Nat, c < smallGrid.n →
      (Family.forwardFromLeftEdge.marks (mirror smallGrid) 5 a r c ↔
        Family.backwardFromRightEdge.marks smallGrid 5 a r (smallGrid.n - 1 - c))) ∧
    (∀ a r c : Nat, 1 ≤ a → a < smallGrid.n → c < smallGrid.n →
      (Family.forwardFromTopEdge.marks (mirror smallGrid) 5 a r c ↔
        Family.backwardFromTopEdge.marks smallGrid 5 (smallGrid.n - 1 - a) r
          (smallGrid.n - 1 - c))) :=
  C17_mirror_symmetry smallGrid 5 2 (by decide) (by decide)

end DiagonalSums

namespace GradeBook

/-! ## The reading loop -/

theorem copyLoop_spec {α : Type} (old new : List (Option α)) (c : Nat)
    (hold : c ≤ old.length) (hnew : c ≤ new.length) :
    ∃ nw, copyLoop old new c = some nw ∧ nw.length = new.length ∧
      ∀ i : Nat, nw[i]? = if i < c then old[i]? else new[i]? := by
  unfold copyLoop
  induction c with
  | zero => exact ⟨new, rfl, rfl, fun i => by simp⟩
  | succ m ih =>
    obtain ⟨nw, e, hl, hget⟩ := ih (by omega) (by omega)
    have hm : m < old.length := by omega
    refine ⟨nw.set m old[m], ?_, by simpa using hl, fun i => ?_⟩
    · rw [List.range_succ, List.foldlM_append, e]
      simp [store, List.getElem?_eq_getElem hm, hl, Nat.lt_of_succ_le hnew]
    · rw [List.getElem?_set]
      by_cases him : m = i
      · subst him
        have : m < nw.length := by omega
        simp [this, List.getElem?_eq_getElem hm]
      · rw [if_neg him, hget]
        by_cases h1 : i < m
        · rw [if_pos h1, if_pos (by omega)]
        · rw [if_neg h1, if_neg (by omega)]

theorem get_append_singleton {α : Type} (grades : List α) (g : α) (i : Nat)
    (h : i < (grades ++ [g]).length) :
    (grades ++ [g]).get ⟨i, h⟩ =
      if h' : i < grades.length then grades.get ⟨i, h'⟩ else g := by
  by_cases h' : i < grades.length
  · rw [dif_pos h']
    simp [List.getElem_append_left h']
  · rw [dif_neg h']
    have hi : i = grades.length := by
      simp only [List.length_append, List.length_singleton] at h
      omega
    subst hi
    simp

theorem storeGrade_first {α : Type} (g : α) (st : State α) (hinv : Inv ([] : List α) st) :
    ∃ st', storeGrade st g = some st' ∧ Inv [g] st' := by
  obtain ⟨cap, count, heap, ac, fc, tb⟩ := st
  obtain ⟨hcount, hcap, hheap, halloc, hfree, htotal⟩ := hinv
  simp only [List.length_nil] at hcount hcap halloc hfree htotal
  cases heap with
  | some block => exact absurd rfl hheap.1
  | none =>
    have hcap' : cap = 5 := by omega
    have hac : ac = 0 := by rw [halloc]; decide
    have hfc : fc = 0 := by rw [hfree]; decide
    have htb : tb = 0 := by rw [htotal]; decide
    subst hcount hcap' hac hfc htb
    refine ⟨⟨5, 1, some [some g, none, none, none, none], 1, 0, 40⟩, ?_, by rfl, by simp,
      ?_, by simp [allocations, UINT_MODULUS], by simp [allocations, UINT_MODULUS],
      by simp [allocations, SIZE_MODULUS]⟩
    · simp [storeGrade, store, malloc, SIZEOF_DOUBLE, SIZE_MODULUS, UINT_MODULUS,
        List.replicate]
    refine ⟨by simp, rfl, fun i h => ?_⟩
    have hi : i = 0 := by simp only [List.length_singleton] at h; omega
    subst hi
    rfl

theorem storeGrade_next {α : Type} (grades : List α) (g : α) (st : State α)
    (hne : grades ≠ []) (hinv : Inv grades st)
    (hfit : largestRequest grades.length < SIZE_MODULUS) :
    ∃ st', storeGrade st g = some st' ∧ Inv (grades ++ [g]) st' := by
  unfold largestRequest SIZEOF_DOUBLE SIZE_MODULUS at hfit
  obtain ⟨cap, count, heap, ac, fc, tb⟩ := st
  obtain ⟨hcount, hcap, hheap, halloc, hfree, htotal⟩ := hinv
  simp only at hcount hcap halloc hfree htotal
  have hN : 0 < grades.length := List.length_pos.2 hne
  have hA : allocations grades.length = grades.length / 5 + 1 := by
    unfold allocations
    rw [if_neg (by omega)]
  cases heap with
  | none => exact absurd hheap hne
  | some block =>
    obtain ⟨_, hlen, hcontent⟩ := hheap
    simp only at hlen
    have hlt : count < block.length := by omega
    have hcount' : (count + 1) % SIZE_MODULUS = count + 1 := by
      apply Nat.mod_eq_of_lt
      unfold SIZE_MODULUS
      omega
    have hcontent' : ∀ (i : Nat) (h : i < (grades ++ [g]).length),
        (block.set count (some g))[i]? = some (some ((grades ++ [g]).get ⟨i, h⟩)) := by
      intro i h
      rw [get_append_singleton, List.getElem?_set]
      by_cases hi : i < grades.length
      · rw [dif_pos hi, if_neg (by omega)]
        exact hcontent i hi
      · rw [dif_neg hi]
        have : count = i := by
          simp only [List.length_append, List.length_singleton] at h
          omega
        rw [if_pos this, if_pos hlt]
    by_cases hfull : count + 1 = cap
    · have hnewCap : (cap + 5) % SIZE_MODULUS = cap + 5 := by
        apply Nat.mod_eq_of_lt
        unfold SIZE_MODULUS
        omega
      have hnewSize : (cap + 5) * SIZEOF_DOUBLE % SIZE_MODULUS = (cap + 5) * 8 := by
        apply Nat.mod_eq_of_lt
        unfold SIZE_MODULUS SIZEOF_DOUBLE
        omega
      have hmalloc : (malloc ((cap + 5) * 8) : List (Option α)) =
          List.replicate (cap + 5) none := by
        unfold malloc SIZEOF_DOUBLE
        rw [Nat.mul_div_cancel _ (by decide)]
      obtain ⟨nw, ecopy, hnwlen, hnwget⟩ := copyLoop_spec (block.set count (some g))
        (List.replicate (cap + 5) (none : Option α)) (count + 1)
        (by rw [List.length_set]; omega) (by rw [List.length_replicate]; omega)
      refine ⟨⟨cap + 5, count + 1, some nw, (ac + 1) % UINT_MODULUS,
        (fc + 1) % UINT_MODULUS, (tb + (cap + 5) * 8) % SIZE_MODULUS⟩, ?_, ?_⟩
      · simp only [storeGrade, store, hlt, if_true, hcount', if_pos hfull, hnewCap, hnewSize,
          hmalloc, Option.pure_def, Option.bind_eq_bind, Option.some_bind, ecopy]
      · have hlen' : (grades ++ [g]).length = grades.length + 1 := by simp
        have hA' : allocations (grades ++ [g]).length = grades.length / 5 + 2 := by
          unfold allocations
          rw [hlen', if_neg (by omega)]
          omega
        refine ⟨by simp only [hlen']; omega, by simp only [hlen']; omega, ?_, ?_, ?_, ?_⟩
        · refine ⟨by simp, by rw [hnwlen, List.length_replicate], fun i h => ?_⟩
          rw [hnwget, if_pos (by rw [hlen'] at h; omega)]
          exact hcontent' i h
        · simp only [hA', halloc, hA]
          rw [Nat.mod_add_mod]
        · simp only [hA', hfree, hA]
          rw [Nat.mod_add_mod]
          rfl
        · simp only [hA', htotal, hA]
          rw [Nat.mod_add_mod]
          congr 1
          rw [hcap]
          ring
    · refine ⟨⟨cap, count + 1, some (block.set count (some g)), ac, fc, tb⟩, ?_, ?_⟩
      · simp only [storeGrade, store, hlt, if_true, hcount', hfull, if_false,
          Option.pure_def, Option.bind_eq_bind, Option.some_bind]
      · have hlen' : (grades ++ [g]).length = grades.length + 1 := by simp
        have hdiv : (grades.length + 1) / 5 = grades.length / 5 := by omega
        have hA' : allocations (grades ++ [g]).length = grades.length / 5 + 1 := by
          unfold allocations
          rw [hlen', if_neg (by omega), hdiv]
        refine ⟨by simp only [hlen']; omega, by simp only [hlen', hdiv]; omega,
          ⟨by simp, by rw [List.length_set]; exact hlen, hcontent'⟩, ?_, ?_, ?_⟩
        · rw [hA', halloc, hA]
        · rw [hA', hfree, hA]
        · rw [hA', htotal, hA]

theorem inv_initial {α : Type} : Inv ([] : List α) initial :=
  ⟨rfl, by simp [initial], rfl, by simp [initial, allocations],
    by simp [initial, allocations], by simp [initial, allocations]⟩

theorem readLoop_grades {α : Type} (grades : List α) (tail : List (Option α))
    (st : State α) :
    readLoop (grades.map some ++ tail) st =
      (grades.foldlM storeGrade st).bind (readLoop tail) := by
  induction grades generalizing st with
  | nil => rfl
  | cons g gs ih =>
    show (storeGrade st g).bind (readLoop (gs.map some ++ tail)) = _
    rw [List.foldlM_cons]
    cases h : storeGrade st g with
    | none => rfl
    | some st1 => exact ih st1

theorem loop_inv {α : Type} (grades : List α)
    (hfit : grades.length = 0 ∨ largestRequest (grades.length - 1) < SIZE_MODULUS) :
    ∃ st, grades.foldlM storeGrade initial = some st ∧ Inv grades st := by
  induction grades using List.reverseRecOn with
  | nil => exact ⟨initial, rfl, inv_initial⟩
  | append_singleton gs g ih =>
    have hlen : (gs ++ [g]).length = gs.length + 1 := by simp
    rw [hlen] at hfit
    have hfit' : largestRequest gs.length < SIZE_MODULUS := by
      rcases hfit with h | h
      · omega
      · exact h
    obtain ⟨st, e, hinv⟩ := ih (by
      unfold largestRequest SIZEOF_DOUBLE SIZE_MODULUS at hfit' ⊢
      omega)
    have hstep : ∃ st', storeGrade st g = some st' ∧ Inv (gs ++ [g]) st' := by
      by_cases hne : gs = []
      · subst hne
        exact storeGrade_first g st hinv
      · exact storeGrade_next gs g st hne hinv hfit'
    obtain ⟨st', e', hinv'⟩ := hstep
    refine ⟨st', ?_, hinv'⟩
    rw [List.foldlM_append, e]
    simp [e']

theorem main_counters {α : Type} (grades : List α) (rest : List (Option α))
    (hfit : grades.length = 0 ∨ largestRequest (grades.length - 1) < SIZE_MODULUS) :
    ∃ st, main (grades.map some ++ none :: rest) = some st ∧
      st.allocCount = allocations grades.length % UINT_MODULUS ∧
      st.freeCount = allocations grades.length % UINT_MODULUS ∧
      st.totalBytes =
        20 * allocations grades.length * (allocations grades.length + 1) % SIZE_MODULUS := by
  obtain ⟨st, e, hinv⟩ := loop_inv grades hfit
  obtain ⟨cap, count, heap, ac, fc, tb⟩ := st
  obtain ⟨_, _, hheap, halloc, hfree, htotal⟩ := hinv
  simp only at halloc hfree htotal
  refine ⟨finish ⟨cap, count, heap, ac, fc, tb⟩, ?_, ?_, ?_, ?_⟩
  · unfold main
    rw [readLoop_grades, e]
    rfl
  · cases heap <;> exact halloc
  · cases heap with
    | none =>
      simp only at hheap
      subst hheap
      show fc = _
      rw [hfree]
      rfl
    | some block =>
      have hN : 0 < grades.length := List.length_pos.2 hheap.1
      have hA : allocations grades.length = grades.length / 5 + 1 := by
        unfold allocations
        rw [if_neg (by omega)]
      show (fc + 1) % UINT_MODULUS = _
      rw [hfree, hA, Nat.mod_add_mod]
      rfl
  · cases heap <;> exact htotal

/-! ## Claims on the grade list program -/

/-- C18 (as stated, refuted): for the input of 4801919410 valid grades followed by a
terminator, `main` makes 960383883 allocations and as many frees, and asks for
`40 + 80 + ... = 20 * 960383883 * 960383884 = 2^64 + 21279824` bytes in all, so that the
`size_t` counter `totalBytes` has wrapped to 21279824 and differs from
`20 * a * (a + 1)` for `a = allocCount`. -/
theorem C18_total_bytes_wraps :
    ∃ st : State Nat, main (List.replicate 4801919410 (some 0) ++ [none]) = some st ∧
      st.allocCount = 960383883 ∧ st.freeCount = 960383883 ∧ st.totalBytes = 21279824 ∧
      st.totalBytes ≠ 20 * st.allocCount * (st.allocCount + 1) := by
  have h := main_counters (List.replicate 4801919410 (0 : Nat)) []
    (by rw [List.length_replicate]; exact Or.inr (by decide))
  rw [List.length_replicate, List.map_replicate] at h
  obtain ⟨st, e, h1, h2, h3⟩ := h
  have hA : allocations 4801919410 = 960383883 := by decide
  rw [hA] at h1 h2 h3
  have k1 : st.allocCount = 960383883 := by rw [h1]; decide
  have k2 : st.freeCount = 960383883 := by rw [h2]; decide
  have k3 : st.totalBytes = 21279824 := by rw [h3]; decide
  refine ⟨st, e, k1, k2, k3, ?_⟩
  rw [k1, k3]
  decide

/-- C18 (amended): for every input of `N ≥ 0` valid grades followed by a terminator, with
`a = 0` when `N = 0` and `a = floor(N/5) + 1` otherwise, and `20 * a * (a + 1) < 2^64`
(no counter wraps), `main` reaches its final `printf` with
`allocCount == freeCount == a` and `totalBytes == 20 * a * (a + 1)`. -/
theorem C18_heap_accounting_balance {α : Type} (grades : List α)
    (rest : List (Option α))
    (hbound : 20 * allocations grades.length * (allocations grades.length + 1) < 2 ^ 64) :
    ∃ st, main (grades.map some ++ none :: rest) = some st ∧
      st.allocCount = st.freeCount ∧
      st.allocCount = (if grades.length = 0 then 0 else grades.length / 5 + 1) ∧
      st.totalBytes = 20 * st.allocCount * (st.allocCount + 1) := by
  have hA : allocations grades.length < 2 ^ 32 := by
    by_contra hge
    have hge' : 2 ^ 32 ≤ allocations grades.length := Nat.le_of_not_lt hge
    have hsq := Nat.mul_le_mul hge' hge'
    nlinarith [hsq, hbound]
  have hfit : grades.length = 0 ∨ largestRequest (grades.length - 1) < SIZE_MODULUS := by
    unfold allocations at hA
    unfold largestRequest SIZEOF_DOUBLE SIZE_MODULUS
    split_ifs at hA <;> omega
  obtain ⟨st, e, h1, h2, h3⟩ := main_counters grades rest hfit
  have k1 : st.allocCount = allocations grades.length := by
    rw [h1]
    exact Nat.mod_eq_of_lt hA
  refine ⟨st, e, by rw [h1, h2], by rw [k1]; rfl, ?_⟩
  rw [h3, k1]
  exact Nat.mod_eq_of_lt hbound

/-- C18 (amended) at an input of 11 grades: 3 allocations, 3 frees, 240 bytes. -/
theorem C18_heap_accounting_balance_witness :
    ∃ st, main ([3, 1, 4, 1, 5, 9, 2, 6, 5, 3, 5].map some ++ none :: [some 7]) = some st ∧
      st.allocCount = st.freeCount ∧
      st.allocCount = (if [3, 1, 4, 1, 5, 9, 2, 6, 5, 3, 5].length = 0 then 0
        else [3, 1, 4, 1, 5, 9, 2, 6, 5, 3, 5].length / 5 + 1) ∧
      st.totalBytes = 20 * st.allocCount * (st.allocCount + 1) :=
  C18_heap_accounting_balance [3, 1, 4, 1, 5, 9, 2, 6, 5, 3, 5] [some 7] (by decide)

/-- C19: for every input and every iteration of the reading loop that stores a grade `g`
after the grades `grades` (the largest block asked for having a size below `2^64` bytes,
as its successful `malloc` presupposes), the store executes with
`gradeCount < currentCapacity` inside the block, and after the iteration
`currentCapacity == 5 * (floor(gradeCount / 5) + 1) > gradeCount`, the block has
`currentCapacity` slots, and its first `gradeCount` slots hold the grades read so far in
input order. -/
theorem C19_buffer_capacity_invariant {α : Type} (grades : List α) (g : α)
    (rest : List (Option α)) (hfit : largestRequest grades.length < SIZE_MODULUS) :
    ∃ (st st' : State α) (block : List (Option α)),
      readLoop (grades.map some) initial = some st ∧
      st.gradeCount = grades.length ∧ st.gradeCount < st.currentCapacity ∧
      storeGrade st g = some st' ∧
      readLoop ((grades ++ [g]).map some ++ rest) initial = readLoop rest st' ∧
      st'.gradeCount = grades.length + 1 ∧
      st'.currentCapacity = 5 * (st'.gradeCount / 5 + 1) ∧
      st'.gradeCount < st'.currentCapacity ∧
      st'.gradesHeap = some block ∧ block.length = st'.currentCapacity ∧
      ∀ (i : Nat) (h : i < (grades ++ [g]).length),
        block[i]? = some (some ((grades ++ [g]).get ⟨i, h⟩)) := by
  obtain ⟨st, e, hinv⟩ := loop_inv grades (by
    unfold largestRequest SIZEOF_DOUBLE SIZE_MODULUS at hfit ⊢
    omega)
  have hstep : ∃ st', storeGrade st g = some st' ∧ Inv (grades ++ [g]) st' := by
    by_cases hne : grades = []
    · subst hne
      exact storeGrade_first g st hinv
    · exact storeGrade_next grades g st hne hinv hfit
  obtain ⟨st', e', hinv'⟩ := hstep
  have hlen : (grades ++ [g]).length = grades.length + 1 := by simp
  obtain ⟨hc, hcap, _, _, _, _⟩ := hinv
  obtain ⟨hc', hcap', hheap', _, _, _⟩ := hinv'
  rw [hlen] at hc' hcap'
  cases hh : st'.gradesHeap with
  | none =>
    rw [hh] at hheap'
    simp at hheap'
  | some block =>
    rw [hh] at hheap'
    refine ⟨st, st', block, ?_, hc, by omega, e', ?_, hc', by rw [hcap', hc'],
      by omega, hh, hheap'.2.1, hheap'.2.2⟩
    · have := readLoop_grades grades [] initial
      rw [List.append_nil, e] at this
      exact this
    · rw [readLoop_grades, List.foldlM_append, e]
      simp [e']

/-- C19 at the fifth grade of an input: the block of 5 slots becomes full and is
replaced by one of 10 slots holding the 5 grades. -/
theorem C19_buffer_capacity_invariant_witness :
    ∃ (st st' : State Nat) (block : List (Option Nat)),
      readLoop ([3, 1, 4, 1].map some) initial = some st ∧
      st.gradeCount = [3, 1, 4, 1].length ∧ st.gradeCount < st.currentCapacity ∧
      storeGrade st 5 = some st' ∧
      readLoop (([3, 1, 4, 1] ++ [5]).map some ++ [some 9, none]) initial =
        readLoop [some 9, none] st' ∧
      st'.gradeCount = [3, 1, 4, 1].length + 1 ∧
      st'.currentCapacity = 5 * (st'.gradeCount / 5 + 1) ∧
      st'.gradeCount < st'.currentCapacity ∧
      st'.gradesHeap = some block ∧ block.length = st'.currentCapacity ∧
      ∀ (i : Nat) (h : i < ([3, 1, 4, 1] ++ [5]).length),
        block[i]? = some (some (([3, 1, 4, 1] ++ [5]).get ⟨i, h⟩)) :=
  C19_buffer_capacity_invariant [3, 1, 4, 1] 5 [some 9, none] (by decide)

end GradeBook
